import Mathlib

/-!
Verification of the AnalyzerAI conversation/retry engine and resource watchdog.

The definitions below are a shallow embedding of the Python source in
`analyzer/model_backend.py` and `analyzer/monitor.py`.  All text is modelled
as `List Char`; the ASCII whitespace set models Python's `str.strip` /
regex `\s` for the character repertoire the program manipulates, and
`Char.toLower` models `str.lower` (the two agree on ASCII, which covers
every policy term the code compares against).
-/

namespace AnalyzerAI

/-! ## Text primitives -/

/-- Whitespace, as in Python `str.strip()` / regex `\s` restricted to ASCII. -/
def isWsChar (c : Char) : Bool :=
  c == ' ' || c == '\t' || c == '\n' || c == '\r' || c == '\x0b' || c == '\x0c'

/-- Sentence delimiters used by `_post_process_reply` (the class `[.?!]`). -/
def isDelimChar (c : Char) : Bool :=
  c == '.' || c == '?' || c == '!'

/-- Character-wise lowering, modelling `str.lower()` on ASCII text. -/
def toLowerL (s : List Char) : List Char := s.map Char.toLower

/-- Drop leading whitespace (the left half of Python `str.strip()`). -/
def ltrim (s : List Char) : List Char := s.dropWhile isWsChar

/-- Drop trailing whitespace (the right half of Python `str.strip()`). -/
def rtrim (s : List Char) : List Char := (s.reverse.dropWhile isWsChar).reverse

/-- Python `str.strip()`. -/
def pyStrip (s : List Char) : List Char := rtrim (ltrim s)

/-- Embedding of `re.sub(r"\s+\n", "\n", text)` (model_backend.py line 298).
The regex replaces, inside each maximal whitespace run, everything up to the
run's last newline by a single newline.  Character-wise this deletes exactly
the whitespace characters that are followed, within their own whitespace run,
by a later newline. -/
def normalizeWs : List Char → List Char
  | [] => []
  | c :: rest =>
      if isWsChar c && (rest.takeWhile isWsChar).contains '\n' then
        normalizeWs rest
      else
        c :: normalizeWs rest

/-- Is `f` a prefix of `s` (used for substring search)? -/
def isPrefixL : List Char → List Char → Bool
  | [], _ => true
  | _ :: _, [] => false
  | a :: as, b :: bs => a == b && isPrefixL as bs

/-- Substring test: does `f` occur contiguously in `s`?  Models Python
`re.search` on a pattern that is a plain literal. -/
def hasSub (f : List Char) : List Char → Bool
  | [] => isPrefixL f []
  | c :: rest => isPrefixL f (c :: rest) || hasSub f rest

/-! ## Sentence chunks

`_post_process_reply` removes offending sentences with
`re.sub(r"[^.?!]*(f)[^.?!]*[.?!]?", "", text, flags=IGNORECASE)`.
Since the forbidden literals contain no `.?!`, a match of that regex is
exactly one maximal delimiter-free segment that contains the literal,
together with the delimiter that follows it (when present): the leftmost
match starts at the segment's start, `[^.?!]*` cannot cross a delimiter,
and greediness extends the match to the segment's end plus one delimiter.
So the substitution deletes precisely the offending (segment, delimiter)
chunks and keeps all others.  We embed that operationally: split the text
into chunks, filter, re-concatenate. -/

/-- A sentence chunk: a delimiter-free segment plus its trailing delimiter
(`none` only for the final chunk of a text not ending in a delimiter). -/
abbrev Chunk := List Char × Option Char

/-- Split into chunks, accumulating the current segment in `acc`. -/
def splitChunksAux (acc : List Char) : List Char → List Chunk
  | [] => if acc = [] then [] else [(acc, none)]
  | c :: rest =>
      if isDelimChar c then (acc, some c) :: splitChunksAux [] rest
      else splitChunksAux (acc ++ [c]) rest

/-- Split a text into sentence chunks. -/
def splitChunks (s : List Char) : List Chunk := splitChunksAux [] s

/-- Re-concatenate chunks back into a text. -/
def chunkJoin (cs : List Chunk) : List Char :=
  cs.foldr (fun c acc => c.1 ++ (match c.2 with | some d => [d] | none => []) ++ acc) []

/-- Does the chunk's segment contain the forbidden literal `f`
(case-insensitively)? -/
def chunkHas (f : List Char) (c : Chunk) : Bool := hasSub f (toLowerL c.1)

/-- Embedding of one `re.sub(r"[^.?!]*(f)[^.?!]*[.?!]?", "", text, IGNORECASE)`
call: delete every sentence chunk containing `f`. -/
def removeFor (f : List Char) (s : List Char) : List Char :=
  chunkJoin ((splitChunks s).filter (fun c => !chunkHas f c))

/-! ## Post-processing (`_post_process_reply`, model_backend.py lines 292-318) -/

/-- The forbidden literals of model_backend.py line 302 (each is a regex that
is in fact a plain lowercase literal). -/
def forbiddenTerms : List (List Char) :=
  ["anthropic".toList, "openai".toList, "meta".toList, "trained by".toList,
   "trained on".toList, "i was trained".toList, "i am a large".toList]

/-- Fallback used when sanitization empties the reply (line 312). -/
def policyNotice : List Char :=
  "[ERRO] Resposta removida por política interna. Peça para reformular a pergunta.".toList

/-- Clarification request appended to very short replies (line 316). -/
def clarifSuffix : List Char :=
  "\n\nSe precisar, descreva com mais detalhes sua pergunta.".toList

/-- The policy-filter loop of lines 304-308: `lowered` is computed once from
the normalized text, and each firing term removes its sentences from the
current text, followed by `strip()`. -/
def policyFold (lowered : List Char) (terms : List (List Char)) (t : List Char) : List Char :=
  terms.foldl (fun cur f => if hasSub f lowered then pyStrip (removeFor f cur) else cur) t

/-- Embedding of `ModelBackend._post_process_reply`. -/
def postProcessReply (text : List Char) : List Char :=
  if text = [] then text
  else
    let t := pyStrip (normalizeWs text)
    let lowered := toLowerL t
    let t := policyFold lowered forbiddenTerms t
    let t := if t = [] then policyNotice else t
    if t.length < 8 then t ++ clarifSuffix else t

/-! ## Conversation history (`ModelBackend`, model_backend.py lines 33-124) -/

/-- A history message: Python dict `{"role": ..., "content": ...}` (well-typed
case; the untyped case used by the load path is modelled separately below). -/
structure Msg where
  role : String
  content : List Char
deriving DecidableEq, Repr

/-- The `ModelBackend` state relevant to the claims. -/
structure Backend where
  provider : String
  model_name : String
  host : String
  history_capacity : Nat
  max_retries : Nat
  system : List Char
  history : List Msg
deriving DecidableEq, Repr

/-- Python slice `rest[-cap:]` for a nonnegative `cap`.  Note the quirk that
`rest[-0:]` is `rest[0:]`, i.e. the whole list, not the empty list. -/
def pySliceLast (cap : Nat) (l : List α) : List α :=
  if cap = 0 then l else l.drop (l.length - cap)

/-- The default system message re-seeded by `_truncate_history`. -/
def systemMsg (sys : List Char) : Msg := ⟨"system", sys⟩

/-- Embedding of `ModelBackend._truncate_history` (lines 81-90); the
source's `rest` binding (the role-filtered tail, sliced when longer than
the capacity) is inlined. -/
def truncateHistory (cap : Nat) (sys : List Char) : List Msg → List Msg
  | [] => [systemMsg sys]
  | first :: tail =>
      (if first.role = "system" then first else systemMsg sys) ::
        (if cap < (tail.filter (fun m => m.role = "user" || m.role = "assistant")).length then
          pySliceLast cap (tail.filter (fun m => m.role = "user" || m.role = "assistant"))
        else tail.filter (fun m => m.role = "user" || m.role = "assistant"))

/-- Embedding of `ModelBackend.push_user` (lines 92-94). -/
def pushUser (b : Backend) (text : List Char) : Backend :=
  { b with history := truncateHistory b.history_capacity b.system (b.history ++ [⟨"user", text⟩]) }

/-- Embedding of `ModelBackend.push_assistant` (lines 96-98). -/
def pushAssistant (b : Backend) (text : List Char) : Backend :=
  { b with history := truncateHistory b.history_capacity b.system (b.history ++ [⟨"assistant", text⟩]) }

/-! ## Retry loop (`ModelBackend._make_request`, lines 156-183) -/

/-- Outcome of one network attempt (`_call_chat_api` / `_call_generate_api`):
either the assembled streamed text, a `requests.RequestException`
(transient transport error), or any other exception (re-raised by the
`except Exception` arm at lines 180-182). -/
inductive AttemptOutcome where
  | ok (assembled : List Char)
  | transient (msg : List Char)
  | hard (msg : List Char)
deriving DecidableEq, Repr

/-- The wait computed at line 177: `min(2 * (2 ** (attempt - 1)), 20)`. -/
def backoffWait (attempt : Nat) : Nat := min (2 * 2 ^ (attempt - 1)) 20

/-- Error message of the exception raised at line 183. -/
def exhaustedMsg : List Char := "Max retries exceeded contacting Ollama".toList

/-- The `while attempt <= self.max_retries` loop (lines 168-183), with the
remaining number of loop entries (`max_retries + 1 - attempt`) as the
recursion fuel and `attempt` as the Python loop counter.  On success the
reply is post-processed (inside `_call_chat_api`, line 235).  Returns the
result together with the list of waits slept, in order. -/
def makeRequestGo (oracle : Nat → AttemptOutcome) :
    Nat → Nat → List Nat → Except (List Char) (List Char) × List Nat
  | 0, _, waits => (.error exhaustedMsg, waits.reverse)
  | fuel + 1, attempt, waits =>
      match oracle attempt with
      | .ok assembled => (.ok (postProcessReply assembled), waits.reverse)
      | .transient _ => makeRequestGo oracle fuel (attempt + 1) (backoffWait (attempt + 1) :: waits)
      | .hard m => (.error m, waits.reverse)

/-- Embedding of `ModelBackend._make_request` for provider "ollama": the
`attempt`-th call's outcome is given by `oracle attempt`. -/
def makeRequest (maxRetries : Nat) (oracle : Nat → AttemptOutcome) :
    Except (List Char) (List Char) × List Nat :=
  makeRequestGo oracle (maxRetries + 1) 0 []

/-! ## `ModelBackend.generate` (lines 321-344) -/

/-- Reply substituted for an empty model reply (line 337). -/
def emptyReplyMsg : List Char := "[ERRO] O modelo retornou resposta vazia.".toList

/-- The fallback synthesized in the `except` arm (line 342). -/
def fallbackMsg (e : List Char) : List Char :=
  "[ERRO OLLAMA] ".toList ++ e ++ ". Resposta fallback.".toList

/-- Embedding of `ModelBackend.generate`.  The network behaviour is supplied
by `oracle`; the `except Exception` arm at lines 340-344 turns every error
(retry exhaustion at line 183 or a re-raised hard error) into the fallback
reply, so the function is total. -/
def generate (b : Backend) (prompt : List Char) (oracle : Nat → AttemptOutcome) :
    Backend × List Char :=
  let p := pyStrip prompt
  if p = [] then (b, [])
  else
    let b := pushUser b p
    if b.provider ≠ "ollama" then
      let reply := "[SIMULADO] ".toList ++ p
      (pushAssistant b reply, reply)
    else
      match (makeRequest b.max_retries oracle).1 with
      | .ok reply =>
          let reply := if reply = [] then emptyReplyMsg else reply
          (pushAssistant b reply, reply)
      | .error e =>
          let fb := fallbackMsg e
          (pushAssistant b fb, fb)

/-! ## Watchdog tick (`SystemMonitor._check_once`, monitor.py lines 62-82)

Resource percentages are modelled as rationals; every comparison the code
performs on its float samples (`cpu >= threshold` etc.) is an order
comparison of decimal literals, on which IEEE doubles and rationals agree. -/

/-- The monitor configuration read in `SystemMonitor.__init__` plus the
module-level `AUTONOMY` constant. -/
structure MonitorCfg where
  cpuThreshold : ℚ
  memThreshold : ℚ
  diskThreshold : ℚ
  autonomy : String
deriving DecidableEq, Repr

/-- Events emitted through `SystemMonitor._emit`.  The process list carried
by alert/suggest events is external state irrelevant to the claims and is
omitted from the payload. -/
inductive MonEvent where
  | log (msg : String)
  | alert (cpu mem disk : ℚ)
  | suggest (tag : String) (disk : ℚ)
  | action (tag : String)
deriving DecidableEq, Repr

/-- Embedding of `SystemMonitor._check_once`.  `mitigActs` are the action
tags `_mitigate_critical` would emit (it emits only `monitor_action`
events), and `autoActs` those of `_auto_free_memory`; both depend on live
process state and are supplied as parameters. -/
def checkOnce (cfg : MonitorCfg) (cpu mem disk : ℚ)
    (mitigActs autoActs : List String) : List MonEvent :=
  [MonEvent.log "heartbeat"] ++
    (if cpu ≥ cfg.cpuThreshold || mem ≥ cfg.memThreshold || disk ≥ cfg.diskThreshold then
      [MonEvent.alert cpu mem disk] ++
        (if cfg.autonomy = "B3" then mitigActs.map MonEvent.action else [])
    else
      (if disk ≥ cfg.diskThreshold - 6 then [MonEvent.suggest "clean_temp" disk] else []) ++
        (if mem ≥ cfg.memThreshold - 6 && cfg.autonomy = "B3" then
          autoActs.map MonEvent.action else []))

/-! ## History loading (`ModelBackend.load_history_from_file`, lines 117-124)

The JSON value parsed from the file can be any Python value, so the load
path is modelled over an untyped value universe: `.get("role")` succeeds on
dicts and raises `AttributeError` on anything else. -/

/-- A parsed JSON value as the load path sees it.  `other` stands for any
well-formed JSON value that is neither a list nor an object; objects are
kept as string-to-string entry lists (the shape of persisted messages). -/
inductive PyVal where
  | dict (entries : List (String × String))
  | list (xs : List PyVal)
  | other

/-- Python `m.get("role")`: `AttributeError` on a non-dict, else the value
of the first `"role"` entry (or `None`). -/
def pyGetRole : PyVal → Except String (Option String)
  | .dict es => .ok ((es.find? (fun e => e.1 = "role")).map (·.2))
  | _ => .error "AttributeError: object has no attribute get"

/-- The system message dict inserted by the load/truncate paths. -/
def sysDict (sys : String) : PyVal := .dict [("role", "system"), ("content", sys)]

/-- The list comprehension of line 87 over untyped values: keep messages
whose role is `user` or `assistant`; a non-dict element raises. -/
def filterRolesPy : List PyVal → Except String (List PyVal)
  | [] => .ok []
  | v :: rest =>
      match pyGetRole v with
      | .error e => .error e
      | .ok r =>
          match filterRolesPy rest with
          | .error e => .error e
          | .ok tail => .ok (if r = some "user" || r = some "assistant" then v :: tail else tail)

/-- Embedding of `_truncate_history` (lines 81-90) over untyped values, as
executed right after a load. -/
def truncateHistoryPy (cap : Nat) (sys : String) : List PyVal → Except String (List PyVal)
  | [] => .ok [sysDict sys]
  | first :: tail =>
      match pyGetRole first with
      | .error e => .error e
      | .ok r =>
          match filterRolesPy tail with
          | .error e => .error e
          | .ok rest =>
              .ok ((if r = some "system" then first else sysDict sys) ::
                (if cap < rest.length then pySliceLast cap rest else rest))

/-- Embedding of `ModelBackend.load_history_from_file` (lines 117-124).
`parsed` is the outcome of `json.load` (a parse error propagates).  The
result is the backend's history after the call: note that a well-formed
JSON value that is not a list leaves the history unchanged because the
`isinstance(loaded, list)` guard simply skips the body. -/
def loadHistoryFromFile (sys : String) (cap : Nat) (current : List PyVal)
    (parsed : Except String PyVal) : Except String (List PyVal) :=
  match parsed with
  | .error e => .error e
  | .ok (.list xs) =>
      match xs with
      | [] => truncateHistoryPy cap sys [sysDict sys]
      | first :: _ =>
          match pyGetRole first with
          | .error e => .error e
          | .ok r =>
              truncateHistoryPy cap sys (if r ≠ some "system" then sysDict sys :: xs else xs)
  | .ok _ => .ok current

/-! ## Fast-path solver

Modelled from the spec: the Arithmetic/Enunciado Fast-Path Solver of spec
§4.1 belongs to a revision of the repository that is not under `src/`
(`src/analyzer` holds only its caller side); the definitions below follow
the spec's words.  Arithmetic is exact (rationals as unnormalized integer
fractions), which agrees with the spec's integer-rendering rule on every
integer-valued result. -/

/-- An unnormalized fraction `num / den`. -/
structure Frac where
  num : Int
  den : Int
deriving DecidableEq, Repr

def fadd (a b : Frac) : Frac := ⟨a.num * b.den + b.num * a.den, a.den * b.den⟩

def fsub (a b : Frac) : Frac := ⟨a.num * b.den - b.num * a.den, a.den * b.den⟩

def fmul (a b : Frac) : Frac := ⟨a.num * b.num, a.den * b.den⟩

/-- Division; `none` on a zero divisor. -/
def fdiv (a b : Frac) : Option Frac :=
  if b.num = 0 then none else some ⟨a.num * b.den, a.den * b.num⟩

def fneg (a : Frac) : Frac := ⟨-a.num, a.den⟩

def fpowNat (b : Frac) : Nat → Frac
  | 0 => ⟨1, 1⟩
  | n + 1 => fmul b (fpowNat b n)

/-- Exponentiation (`^` rewritten to `**` per the spec); only nonnegative
integer exponents are meaningful in the sandboxed evaluator. -/
def fpow (b e : Frac) : Option Frac :=
  if e.den = 0 then none
  else if e.num % e.den ≠ 0 then none
  else
    let k := e.num / e.den
    if k < 0 then none else some (fpowNat b k.toNat)

def digitVal (c : Char) : Nat := c.toNat - 48

def skipSp (s : List Char) : List Char := s.dropWhile (fun c => c == ' ')

def digitsToNat (ds : List Char) : Nat := ds.foldl (fun a c => a * 10 + digitVal c) 0

/-- Parse `digits+('.'digits+)?` into a fraction. -/
def parseNumber (s : List Char) : Option (Frac × List Char) :=
  let ds := s.takeWhile Char.isDigit
  if ds = [] then none
  else
    let rest := s.drop ds.length
    match rest with
    | '.' :: r2 =>
        let fs := r2.takeWhile Char.isDigit
        if fs = [] then none
        else
          some (⟨(digitsToNat ds * 10 ^ fs.length + digitsToNat fs : Nat), (10 ^ fs.length : Nat)⟩,
            r2.drop fs.length)
    | _ => some (⟨(digitsToNat ds : Nat), 1⟩, rest)

mutual

/-- `expr := term (('+'|'-') term)*` -/
def parseExpr : Nat → List Char → Option (Frac × List Char)
  | 0, _ => none
  | fuel + 1, s => do
      let (v, s) ← parseTerm fuel s
      parseExprRest fuel v s

def parseExprRest : Nat → Frac → List Char → Option (Frac × List Char)
  | 0, _, _ => none
  | fuel + 1, acc, s =>
      match skipSp s with
      | '+' :: rest => do
          let (v, s2) ← parseTerm fuel rest
          parseExprRest fuel (fadd acc v) s2
      | '-' :: rest => do
          let (v, s2) ← parseTerm fuel rest
          parseExprRest fuel (fsub acc v) s2
      | _ => some (acc, s)

/-- `term := factor (('*'|'/') factor)*` -/
def parseTerm : Nat → List Char → Option (Frac × List Char)
  | 0, _ => none
  | fuel + 1, s => do
      let (v, s) ← parseFactor fuel s
      parseTermRest fuel v s

def parseTermRest : Nat → Frac → List Char → Option (Frac × List Char)
  | 0, _, _ => none
  | fuel + 1, acc, s =>
      match skipSp s with
      | '*' :: rest => do
          let (v, s2) ← parseFactor fuel rest
          parseTermRest fuel (fmul acc v) s2
      | '/' :: rest => do
          let (v, s2) ← parseFactor fuel rest
          let q ← fdiv acc v
          parseTermRest fuel q s2
      | _ => some (acc, s)

/-- `factor := atom ('^' factor)?` (right-associative exponent). -/
def parseFactor : Nat → List Char → Option (Frac × List Char)
  | 0, _ => none
  | fuel + 1, s => do
      let (v, s) ← parseAtom fuel s
      match skipSp s with
      | '^' :: rest => do
          let (e, s2) ← parseFactor fuel rest
          let p ← fpow v e
          pure (p, s2)
      | _ => pure (v, s)

/-- `atom := number | '(' expr ')' | ('-'|'+') factor` -/
def parseAtom : Nat → List Char → Option (Frac × List Char)
  | 0, _ => none
  | fuel + 1, s =>
      match skipSp s with
      | '(' :: rest => do
          let (v, s2) ← parseExpr fuel rest
          match skipSp s2 with
          | ')' :: s3 => pure (v, s3)
          | _ => none
      | '-' :: rest => do
          let (v, s2) ← parseFactor fuel rest
          pure (fneg v, s2)
      | '+' :: rest => parseFactor fuel rest
      | s2 => parseNumber s2

end

/-- Parse a whole expression (the parse must consume all input). -/
def parseFull (s : List Char) : Option Frac :=
  match parseExpr (4 * s.length + 8) s with
  | some (v, rest) => if skipSp rest = [] then some v else none
  | none => none

def natToCharsAux : Nat → Nat → List Char
  | 0, _ => []
  | fuel + 1, n => if n = 0 then [] else natToCharsAux fuel (n / 10) ++ [Char.ofNat (48 + n % 10)]

def natToChars (n : Nat) : List Char := if n = 0 then ['0'] else natToCharsAux (n + 1) n

def intToChars (i : Int) : List Char :=
  if i < 0 then '-' :: natToChars i.natAbs else natToChars i.natAbs

/-- Render a result: integer values print as integers (the spec's
within-1e-9 rounding rule, which is exact here), other rationals as
`num/den`. -/
def renderFrac (v : Frac) : List Char :=
  let n := if v.den < 0 then -v.num else v.num
  let d := if v.den < 0 then -v.den else v.den
  if d = 0 then "inf".toList
  else if n % d = 0 then intToChars (n / d)
  else intToChars n ++ ['/'] ++ intToChars d

/-- The restricted character class of the arithmetic recognizer: digits,
`+ - * / ^ ( ) .` and spaces.  Any other character (letters, underscores,
quotes, ...) makes the arithmetic path refuse the input, so an expression
such as a call or identifier is never parsed, let alone evaluated. -/
def allowedExprChar (c : Char) : Bool :=
  c.isDigit || "+-*/^(). ".toList.contains c

def stripPrefixL (p s : List Char) : Option (List Char) :=
  if isPrefixL p s then some (s.drop p.length) else none

/-- Extract the maximal digit runs of a text as natural numbers. -/
def extractNatsAux (cur : Option Nat) : List Char → List Nat
  | [] => cur.toList
  | c :: rest =>
      if c.isDigit then extractNatsAux (some (cur.getD 0 * 10 + digitVal c)) rest
      else cur.toList ++ extractNatsAux none rest

def extractNats (s : List Char) : List Nat := extractNatsAux none s

/-- Modelled from the spec: the linear word-problem recognizer of §4.1
(doubling means multiplier 2, tripling 3, explicit multiply-by-N means N;
solves `original = (result - addend) / multiplier`, subtracting keywords
negate the addend); `none` when no pattern matches. -/
def linearSolve (low : List Char) : Option (List Char) :=
  let nums := extractNats low
  let mult : Option Int :=
    if hasSub "double".toList low then some 2
    else if hasSub "tripl".toList low then some 3
    else if hasSub "multiply".toList low then
      match nums with
      | n :: _ => some (n : Int)
      | [] => none
    else none
  match mult with
  | none => none
  | some m =>
      let rest := if hasSub "multiply".toList low then nums.drop 1 else nums
      match rest with
      | [a, r] =>
          if m = 0 then none
          else
            let addend : Int := if hasSub "subtract".toList low then -(a : Int) else (a : Int)
            some (renderFrac ⟨(r : Int) - addend, m⟩)
      | _ => none

/-- Modelled from the spec: the Fast-Path Solver entry point of §4.1 (not
present under `src/`).  Text matching an interrogative prefix followed by
the restricted character class is evaluated as arithmetic; otherwise the
linear word-problem recognizer runs; `none` defers to the network. -/
def solveFastPath (text : List Char) : Option (List Char) :=
  let low := toLowerL (pyStrip text)
  let arith : Option (List Char) :=
    match stripPrefixL "what is".toList low <|> stripPrefixL "how much is".toList low with
    | some rest =>
        let e := pyStrip rest
        if !e.isEmpty && e.all allowedExprChar then
          match parseFull e with
          | some v => some (renderFrac v)
          | none => none
        else none
    | none => none
  match arith with
  | some ans => some ans
  | none => linearSolve low

/-- Modelled from the spec: step 1 of `generate` in §4.4 — try the fast
path; on a hit append the answer to history as `assistant` and return
immediately, with no network call and no retry state; on a miss defer to
the `generate` of `src/analyzer/model_backend.py`. -/
def generateWithFastPath (b : Backend) (prompt : List Char)
    (oracle : Nat → AttemptOutcome) : Backend × List Char :=
  match solveFastPath prompt with
  | some ans => (pushAssistant b ans, ans)
  | none => generate b prompt oracle

/-! ## Retry-loop lemmas -/

/-- When every attempt fails transiently, the loop sleeps once per loop
entry and exhausts the fuel. -/
lemma makeRequestGo_transient (ms : Nat → List Char) :
    ∀ (fuel attempt : Nat) (waits : List Nat),
      makeRequestGo (fun n => AttemptOutcome.transient (ms n)) fuel attempt waits
        = (Except.error exhaustedMsg,
            waits.reverse ++ (List.range fuel).map (fun i => backoffWait (attempt + 1 + i))) := by
  intro fuel
  induction fuel with
  | zero => intro attempt waits; simp [makeRequestGo]
  | succ n ih =>
      intro attempt waits
      simp only [makeRequestGo]
      rw [ih]
      simp only [List.range_succ_eq_map, List.map_cons, List.map_map, List.reverse_cons,
        List.append_assoc, List.cons_append, List.nil_append]
      refine congrArg _ (congrArg _ ?_)
      refine congrArg₂ _ (congrArg backoffWait (by omega)) ?_
      apply List.map_congr_left
      intro i _
      simp only [Function.comp]
      congr 1
      omega

/-- C1 counterexample: the claim fails on the code at `max_retries = 3` with
every attempt failing transiently — the loop performs four failed attempts
sleeping 2, 4, 8 and 16 seconds (not exactly three with 2, 4, 8), and the
code's backoff cap is 20, not 30: at the fifth failed attempt (reachable
with `max_retries = 4`) the code sleeps 20 seconds where the claimed formula
`min(2 * 2^(k-1), 30)` gives 30. -/
theorem c1_counterexample :
    (makeRequest 3 (fun _ => AttemptOutcome.transient [])).2 = [2, 4, 8, 16] ∧
    (makeRequest 3 (fun _ => AttemptOutcome.transient [])).2.length ≠ 3 ∧
    (makeRequest 4 (fun _ => AttemptOutcome.transient [])).2 = [2, 4, 8, 16, 20] ∧
    (20 : Nat) ≠ min (2 * 2 ^ (5 - 1)) 30 := by
  refine ⟨by decide, by decide, by decide, by decide⟩

/-- C1 (amended): in a run where every attempt fails with a transient
transport error, the wait slept after the k-th failed attempt equals
`min(2 * 2^(k-1), 20)`; with `max_retries = 3` the loop performs four
consecutive failed attempts, producing waits of 2, 4, 8 and 16 seconds,
before it raises the exhaustion error. -/
theorem c1_retry_backoff (maxRetries : Nat) (ms : Nat → List Char) :
    makeRequest maxRetries (fun n => AttemptOutcome.transient (ms n))
      = (Except.error exhaustedMsg,
          (List.range (maxRetries + 1)).map (fun k => min (2 * 2 ^ k) 20)) := by
  unfold makeRequest
  rw [makeRequestGo_transient]
  simp only [List.reverse_nil, List.nil_append]
  refine congrArg _ ?_
  apply List.map_congr_left
  intro i _
  simp [backoffWait]

/-! ## History push lemmas -/

/-- A truncated history is never empty. -/
lemma truncateHistory_ne_nil (cap : Nat) (sys : List Char) (h : List Msg) :
    truncateHistory cap sys h ≠ [] := by
  cases h <;> simp [truncateHistory]

/-- The Python slice `l[-cap:]` of a list ending in `a` still ends in `a`. -/
lemma pySliceLast_concat_getLast (cap : Nat) (l : List α) (a : α) :
    (pySliceLast cap (l ++ [a])).getLast? = some a := by
  unfold pySliceLast
  split
  · exact List.getLast?_concat _
  · rename_i hcap
    simp only [List.length_append, List.length_cons, List.length_nil]
    have hle : l.length + (0 + 1) - cap ≤ l.length := by omega
    rw [List.drop_append_of_le_length hle]
    exact List.getLast?_concat _

/-- The capacity-guarded slice of a list ending in `a` still ends in `a`. -/
lemma guardedSlice_getLast (cap : Nat) (l : List α) (a : α) :
    (if cap < (l ++ [a]).length then pySliceLast cap (l ++ [a]) else l ++ [a]).getLast?
      = some a := by
  split
  · exact pySliceLast_concat_getLast cap l a
  · exact List.getLast?_concat _

/-- Truncation after appending an assistant message to a nonempty history
keeps that message as the last element. -/
lemma truncate_append_assistant_getLast (cap : Nat) (sys : List Char)
    (h : List Msg) (hne : h ≠ []) (t : List Char) :
    (truncateHistory cap sys (h ++ [⟨"assistant", t⟩])).getLast? = some ⟨"assistant", t⟩ := by
  obtain ⟨first, tail, rfl⟩ : ∃ f tl, h = f :: tl := by
    cases h with
    | nil => exact absurd rfl hne
    | cons f tl => exact ⟨f, tl, rfl⟩
  simp only [List.cons_append, truncateHistory]
  have hfilter : (tail ++ [(⟨"assistant", t⟩ : Msg)]).filter
      (fun m => m.role = "user" || m.role = "assistant")
      = tail.filter (fun m => m.role = "user" || m.role = "assistant") ++ [⟨"assistant", t⟩] := by
    rw [List.filter_append]; simp
  rw [hfilter]
  rw [List.getLast?_cons, guardedSlice_getLast]
  simp

lemma pushUser_provider (b : Backend) (t : List Char) : (pushUser b t).provider = b.provider := rfl

lemma pushUser_max_retries (b : Backend) (t : List Char) :
    (pushUser b t).max_retries = b.max_retries := rfl

lemma pushUser_history_ne_nil (b : Backend) (t : List Char) : (pushUser b t).history ≠ [] :=
  truncateHistory_ne_nil _ _ _

lemma pushAssistant_getLast (b : Backend) (t : List Char) (hne : b.history ≠ []) :
    (pushAssistant b t).history.getLast? = some ⟨"assistant", t⟩ :=
  truncate_append_assistant_getLast _ _ _ hne _

/-- C3: every `generate` call on a constructed backend returns a (nonempty)
text reply instead of raising: the result is always pushed to the history
as the last assistant message, and whenever the request pipeline ends in an
error — retry exhaustion or any other failure — the returned text is the
human-readable fallback message built from that error. -/
theorem c3_generate_never_raises (b : Backend) (prompt : List Char)
    (oracle : Nat → AttemptOutcome) (h : pyStrip prompt ≠ []) :
    (generate b prompt oracle).2 ≠ [] ∧
    ((generate b prompt oracle).1).history.getLast? =
      some ⟨"assistant", (generate b prompt oracle).2⟩ ∧
    ∀ e, (makeRequest b.max_retries oracle).1 = Except.error e →
      b.provider = "ollama" → (generate b prompt oracle).2 = fallbackMsg e := by
  unfold generate
  simp only [h, if_neg, pushUser_provider, pushUser_max_retries, ite_not]
  by_cases hprov : b.provider = "ollama"
  · simp only [hprov, if_pos]
    cases hres : (makeRequest b.max_retries oracle).1 with
    | ok reply =>
        by_cases hrep : reply = []
        · simp only [hrep, reduceIte]
          refine ⟨by simp [emptyReplyMsg], ?_, ?_⟩
          · exact pushAssistant_getLast _ _ (pushUser_history_ne_nil b _)
          · intro e he
            simp at he
        · simp only [hrep, reduceIte]
          refine ⟨hrep, ?_, ?_⟩
          · exact pushAssistant_getLast _ _ (pushUser_history_ne_nil b _)
          · intro e he
            simp at he
    | error e =>
        simp only [reduceIte]
        refine ⟨by simp [fallbackMsg], ?_, ?_⟩
        · exact pushAssistant_getLast _ _ (pushUser_history_ne_nil b _)
        · intro e2 he2 _
          simp only [Except.error.injEq] at he2
          rw [he2]
  · simp only [hprov, reduceIte]
    refine ⟨by simp, ?_, ?_⟩
    · exact pushAssistant_getLast _ _ (pushUser_history_ne_nil b _)
    · intro e _ hprov2
      simp_all

/-- Witness for C3 at a concrete backend, prompt and an oracle whose every
attempt fails transiently. -/
theorem c3_generate_never_raises_witness :
    (generate ⟨"ollama", "qwen2.5:7b-q4_K_M", "http://127.0.0.1:11434", 80, 3,
        "sys".toList, [⟨"system", "sys".toList⟩]⟩ "ola".toList
      (fun _ => AttemptOutcome.transient "boom".toList)).2 ≠ [] ∧
    ((generate ⟨"ollama", "qwen2.5:7b-q4_K_M", "http://127.0.0.1:11434", 80, 3,
        "sys".toList, [⟨"system", "sys".toList⟩]⟩ "ola".toList
      (fun _ => AttemptOutcome.transient "boom".toList)).1).history.getLast? =
      some ⟨"assistant", (generate ⟨"ollama", "qwen2.5:7b-q4_K_M", "http://127.0.0.1:11434", 80, 3,
        "sys".toList, [⟨"system", "sys".toList⟩]⟩ "ola".toList
      (fun _ => AttemptOutcome.transient "boom".toList)).2⟩ ∧
    ∀ e, (makeRequest (⟨"ollama", "qwen2.5:7b-q4_K_M", "http://127.0.0.1:11434", 80, 3,
        "sys".toList, [⟨"system", "sys".toList⟩]⟩ : Backend).max_retries
        (fun _ => AttemptOutcome.transient "boom".toList)).1 = Except.error e →
      (⟨"ollama", "qwen2.5:7b-q4_K_M", "http://127.0.0.1:11434", 80, 3,
        "sys".toList, [⟨"system", "sys".toList⟩]⟩ : Backend).provider = "ollama" →
      (generate ⟨"ollama", "qwen2.5:7b-q4_K_M", "http://127.0.0.1:11434", 80, 3,
        "sys".toList, [⟨"system", "sys".toList⟩]⟩ "ola".toList
      (fun _ => AttemptOutcome.transient "boom".toList)).2 = fallbackMsg e :=
  c3_generate_never_raises _ _ _ (by decide)

/-- C10: a prompt that is empty or consists only of whitespace makes
`generate` return the empty string immediately, with the backend (hence the
history) completely unchanged and the network oracle never consulted. -/
theorem c10_blank_prompt_no_effect (b : Backend) (prompt : List Char)
    (oracle : Nat → AttemptOutcome) (h : pyStrip prompt = []) :
    generate b prompt oracle = (b, []) := by
  unfold generate
  simp [h]

/-- Witness for C10 at a whitespace-only prompt. -/
theorem c10_blank_prompt_no_effect_witness :
    generate ⟨"ollama", "qwen2.5:7b-q4_K_M", "http://127.0.0.1:11434", 80, 3,
        "sys".toList, [⟨"system", "sys".toList⟩]⟩ "  \n ".toList
        (fun _ => AttemptOutcome.ok "hello".toList)
      = (⟨"ollama", "qwen2.5:7b-q4_K_M", "http://127.0.0.1:11434", 80, 3,
        "sys".toList, [⟨"system", "sys".toList⟩]⟩, []) :=
  c10_blank_prompt_no_effect _ _ _ (by decide)

/-- C9: watchdog classification uses inclusive comparisons — a tick emits an
alert event if and only if `cpu ≥ cpu_threshold` or `mem ≥ mem_threshold`
or `disk ≥ disk_threshold`, the emitted alert carries the tick's sample,
and in particular (with the code's default thresholds 90/85/92) a sample
with `cpu = 90` triggers an alert while `cpu = 89.9` with mem and disk
below their thresholds does not. -/
theorem c9_watchdog_inclusive_thresholds :
    (∀ (cfg : MonitorCfg) (cpu mem disk : ℚ) (ma aa : List String),
      ((∃ c m d, MonEvent.alert c m d ∈ checkOnce cfg cpu mem disk ma aa) ↔
        (cpu ≥ cfg.cpuThreshold ∨ mem ≥ cfg.memThreshold ∨ disk ≥ cfg.diskThreshold)) ∧
      ((cpu ≥ cfg.cpuThreshold ∨ mem ≥ cfg.memThreshold ∨ disk ≥ cfg.diskThreshold) →
        MonEvent.alert cpu mem disk ∈ checkOnce cfg cpu mem disk ma aa)) ∧
    MonEvent.alert 90 0 0 ∈ checkOnce ⟨90, 85, 92, "B2"⟩ 90 0 0 [] [] ∧
    (∀ c m d, MonEvent.alert c m d ∉ checkOnce ⟨90, 85, 92, "B2"⟩ (899 / 10) 0 0 [] []) := by
  refine ⟨?_, ?_, ?_⟩
  · intro cfg cpu mem disk ma aa
    by_cases hcond : cpu ≥ cfg.cpuThreshold ∨ mem ≥ cfg.memThreshold ∨ disk ≥ cfg.diskThreshold
    · have hb : (decide (cpu ≥ cfg.cpuThreshold) || decide (mem ≥ cfg.memThreshold) ||
          decide (disk ≥ cfg.diskThreshold)) = true := by
        simp only [Bool.or_eq_true, decide_eq_true_eq]
        tauto
      constructor
      · simp only [checkOnce, hb, if_pos]
        constructor
        · intro _; exact hcond
        · intro _
          exact ⟨cpu, mem, disk, by simp⟩
      · intro _
        simp [checkOnce, hb]
    · have hb : (decide (cpu ≥ cfg.cpuThreshold) || decide (mem ≥ cfg.memThreshold) ||
          decide (disk ≥ cfg.diskThreshold)) = false := by
        simp only [Bool.or_eq_false_iff, decide_eq_false_iff_not]
        tauto
      constructor
      · simp only [checkOnce, hb, Bool.false_eq_true, if_false]
        constructor
        · rintro ⟨c, m, d, hmem⟩
          exfalso
          rcases List.mem_cons.mp hmem with h1 | h2
          · exact MonEvent.noConfusion h1
          · rcases List.mem_append.mp h2 with h3 | h4
            · simp at h3
            · rcases List.mem_append.mp h4 with h5 | h6
              · revert h5; split <;> simp
              · revert h6; split <;> simp [List.mem_map]
        · intro hc; exact absurd hc hcond
      · intro hc; exact absurd hc hcond
  · have h90 : ((90 : ℚ) ≥ 90 ∨ (0 : ℚ) ≥ 85 ∨ (0 : ℚ) ≥ 92) := Or.inl le_rfl
    simp [checkOnce]
  · intro c m d
    have h1 : ¬((899 / 10 : ℚ) ≥ 90) := by norm_num
    have h2 : ¬((0 : ℚ) ≥ 85) := by norm_num
    have h3 : ¬((0 : ℚ) ≥ 92) := by norm_num
    have h4 : ¬((0 : ℚ) ≥ 92 - 6) := by norm_num
    simp [checkOnce, h1, h2, h3, h4]

/-! ## Load-path lemmas -/

/-- Filtering a list of dicts never raises. -/
lemma filterRolesPy_dicts_ok : ∀ (l : List PyVal), (∀ v ∈ l, ∃ es, v = PyVal.dict es) →
    ∃ r, filterRolesPy l = .ok r := by
  intro l
  induction l with
  | nil => intro _; exact ⟨[], rfl⟩
  | cons v rest ih =>
      intro hall
      obtain ⟨es, hv⟩ := hall v (List.mem_cons_self v rest)
      subst hv
      obtain ⟨r, hr⟩ := ih (fun w hw => hall w (List.mem_cons_of_mem _ hw))
      simp only [filterRolesPy, pyGetRole, hr]
      exact ⟨_, rfl⟩

/-- C8 counterexample: a file whose content is well-formed JSON but not an
array of messages (e.g. the JSON document `42`) makes `load_history_from_file`
return silently with the history unchanged — no error is propagated,
contradicting the claim. -/
theorem c8_counterexample :
    loadHistoryFromFile "sys" 80 [sysDict "sys"] (.ok .other) = .ok [sysDict "sys"] := rfl

/-- C8 (amended): a malformed persisted history (a JSON parse failure)
propagates the error to the caller, but well-formed JSON that is not a list
is silently ignored, leaving the history unchanged; for a well-formed array
whose first element is not a system message (and whose elements are
objects, so that no attribute error is raised), a system message is
inserted at position 0, and an empty array is replaced by the lone system
message. -/
theorem c8_load_behaviour (sys : String) (cap : Nat) (current : List PyVal) :
    (∀ e, loadHistoryFromFile sys cap current (.error e) = .error e) ∧
    loadHistoryFromFile sys cap current (.ok .other) = .ok current ∧
    (∀ entries xs, (∀ v ∈ xs, ∃ es, v = PyVal.dict es) →
      ((entries.find? (fun e => e.1 = "role")).map (·.2)) ≠ some "system" →
      ∃ h, loadHistoryFromFile sys cap current (.ok (.list (PyVal.dict entries :: xs)))
          = .ok h ∧ h.head? = some (sysDict sys)) ∧
    loadHistoryFromFile sys cap current (.ok (.list [])) = .ok [sysDict sys] := by
  refine ⟨fun e => rfl, rfl, ?_, ?_⟩
  · intro entries xs hall hrole
    obtain ⟨fr, hfr⟩ := filterRolesPy_dicts_ok (PyVal.dict entries :: xs)
      (by
        intro v hv
        rcases List.mem_cons.mp hv with rfl | hv2
        · exact ⟨entries, rfl⟩
        · exact hall v hv2)
    refine ⟨sysDict sys :: (if cap < fr.length then pySliceLast cap fr else fr), ?_, by simp⟩
    simp only [loadHistoryFromFile, pyGetRole]
    rw [if_pos hrole]
    simp only [truncateHistoryPy, pyGetRole, sysDict, hfr]
    simp [List.find?]
  · simp [loadHistoryFromFile, truncateHistoryPy, pyGetRole, sysDict, filterRolesPy, List.find?]

/-- Witness for C8 at a concrete two-message array missing its system
message. -/
theorem c8_load_behaviour_witness :
    ∃ h, loadHistoryFromFile "s" 2 []
        (.ok (.list [PyVal.dict [("role", "user"), ("content", "oi")],
          PyVal.dict [("role", "assistant"), ("content", "ola")]]))
        = .ok h ∧ h.head? = some (sysDict "s") :=
  (c8_load_behaviour "s" 2 []).2.2.1 [("role", "user"), ("content", "oi")]
    [PyVal.dict [("role", "assistant"), ("content", "ola")]]
    (by
      intro v hv
      rcases List.mem_singleton.mp hv with rfl
      exact ⟨_, rfl⟩)
    (by decide)

/-! ## Fast-path claims -/

/-- C5: the spec-modelled fast-path solver answers simple arithmetic
locally and safely — `solve("what is 2+2")` is `"4"`, `solve("what is 7*6")`
is `"42"`, the unsafe input `solve("what is __import__('os')")` is rejected
with `none` (its characters fail the restricted class, so it is never
parsed or evaluated) — and the spec-modelled `generate` wrapper answers a
fast-path hit by appending the answer to the history as assistant and
returning immediately, independently of the network oracle and with no
retry state. -/
theorem c5_fast_path_solver (b : Backend) (oracle : Nat → AttemptOutcome) :
    solveFastPath "what is 2+2".toList = some "4".toList ∧
    solveFastPath "what is 7*6".toList = some "42".toList ∧
    solveFastPath "what is __import__('os')".toList = none ∧
    generateWithFastPath b "what is 2+2".toList oracle
      = (pushAssistant b "4".toList, "4".toList) := by
  have h4 : solveFastPath "what is 2+2".toList = some "4".toList := by decide
  refine ⟨h4, by decide, by decide, ?_⟩
  unfold generateWithFastPath
  rw [h4]

/-! ## Push sequences and the canonical history shape -/

/-- One `push_user` / `push_assistant` call. -/
inductive PushCall where
  | user (text : List Char)
  | assistant (text : List Char)
deriving DecidableEq, Repr

def PushCall.toMsg : PushCall → Msg
  | .user t => ⟨"user", t⟩
  | .assistant t => ⟨"assistant", t⟩

def applyPush (b : Backend) : PushCall → Backend
  | .user t => pushUser b t
  | .assistant t => pushAssistant b t

/-- Run a finite sequence of push calls. -/
def applyPushes (b : Backend) (ps : List PushCall) : Backend := ps.foldl applyPush b

/-- The `cap` most recent elements of a list. -/
def lastN (cap : Nat) (l : List α) : List α := l.drop (l.length - cap)

/-- Unfolding lemma for `truncateHistory` on a nonempty history. -/
lemma truncateHistory_cons (cap : Nat) (sys : List Char) (first : Msg) (tail : List Msg) :
    truncateHistory cap sys (first :: tail)
      = (if first.role = "system" then first else systemMsg sys) ::
        (if cap < (tail.filter (fun m => m.role = "user" || m.role = "assistant")).length then
          pySliceLast cap (tail.filter (fun m => m.role = "user" || m.role = "assistant"))
        else tail.filter (fun m => m.role = "user" || m.role = "assistant")) := rfl

lemma applyPush_history_capacity (b : Backend) (p : PushCall) :
    (applyPush b p).history_capacity = b.history_capacity := by
  cases p <;> rfl

lemma applyPush_system (b : Backend) (p : PushCall) : (applyPush b p).system = b.system := by
  cases p <;> rfl

lemma applyPushes_history_capacity (ps : List PushCall) : ∀ (b : Backend),
    (applyPushes b ps).history_capacity = b.history_capacity := by
  induction ps with
  | nil => intro b; rfl
  | cons p rest ih =>
      intro b
      show (applyPushes (applyPush b p) rest).history_capacity = _
      rw [ih, applyPush_history_capacity]

lemma applyPushes_system (ps : List PushCall) : ∀ (b : Backend),
    (applyPushes b ps).system = b.system := by
  induction ps with
  | nil => intro b; rfl
  | cons p rest ih =>
      intro b
      show (applyPushes (applyPush b p) rest).system = _
      rw [ih, applyPush_system]

lemma lastN_length (cap : Nat) (l : List α) : (lastN cap l).length = min l.length cap := by
  simp [lastN]
  omega

/-- One truncation step on the canonical history shape, for capacity ≥ 1. -/
lemma truncate_canonical_step (cap : Nat) (hcap : 1 ≤ cap) (sys : List Char)
    (M : List Msg) (hM : ∀ m ∈ M, m.role = "user" ∨ m.role = "assistant")
    (m : Msg) (hm : m.role = "user" ∨ m.role = "assistant") :
    truncateHistory cap sys (systemMsg sys :: (lastN cap M ++ [m]))
      = systemMsg sys :: lastN cap (M ++ [m]) := by
  have hfst : (systemMsg sys).role = "system" := rfl
  rw [truncateHistory_cons]
  simp only [hfst, if_pos, reduceIte]
  have hpass : ∀ x ∈ lastN cap M ++ [m],
      (x.role = "user" || x.role = "assistant") = true := by
    intro x hx
    rcases List.mem_append.mp hx with hx1 | hx2
    · have : x ∈ M := List.drop_subset _ _ hx1
      rcases hM x this with h | h <;> simp [h]
    · rcases List.mem_singleton.mp hx2 with rfl
      rcases hm with h | h <;> simp [h]
  rw [List.filter_eq_self.mpr hpass]
  have hlen : (lastN cap M ++ [m]).length = min M.length cap + 1 := by
    simp [lastN_length]
  by_cases hMlen : M.length < cap
  · have hguard : ¬(cap < (lastN cap M ++ [m]).length) := by
      rw [hlen]; omega
    rw [if_neg hguard]
    have h1 : lastN cap M = M := by
      unfold lastN
      rw [Nat.sub_eq_zero_of_le (Nat.le_of_lt hMlen), List.drop_zero]
    have h2 : lastN cap (M ++ [m]) = M ++ [m] := by
      unfold lastN
      have hz : (M ++ [m]).length - cap = 0 := by
        simp only [List.length_append, List.length_cons, List.length_nil]
        omega
      rw [hz, List.drop_zero]
    rw [h1, h2]
  · have hguard : cap < (lastN cap M ++ [m]).length := by
      rw [hlen]; omega
    rw [if_pos hguard]
    unfold pySliceLast
    rw [if_neg (by omega : ¬cap = 0)]
    rw [hlen]
    have hdroplen : min M.length cap + 1 - cap = 1 := by omega
    rw [hdroplen]
    have hlast : (lastN cap M).length = cap := by rw [lastN_length]; omega
    rw [List.drop_append_of_le_length (by rw [hlast]; exact hcap)]
    unfold lastN
    rw [List.drop_drop]
    simp only [List.length_append, List.length_cons, List.length_nil, Nat.zero_add]
    rw [List.drop_append_of_le_length (by omega)]
    have harith : M.length - cap + 1 = M.length + 1 - cap := by omega
    rw [harith]

/-- Running a push sequence from a freshly seeded history yields the pinned
system message followed by the `capacity` most recent pushed messages. -/
lemma applyPushes_history (b : Backend) (hcap : 1 ≤ b.history_capacity)
    (hh : b.history = [systemMsg b.system]) (ps : List PushCall) :
    (applyPushes b ps).history
      = systemMsg b.system :: lastN b.history_capacity (ps.map PushCall.toMsg) := by
  induction ps using List.reverseRecOn with
  | nil => simpa [applyPushes, lastN] using hh
  | append_singleton ps p ih =>
      have hfold : applyPushes b (ps ++ [p]) = applyPush (applyPushes b ps) p := by
        simp [applyPushes, List.foldl_append]
      rw [hfold]
      have hcap2 : (applyPushes b ps).history_capacity = b.history_capacity :=
        applyPushes_history_capacity ps b
      have hsys2 : (applyPushes b ps).system = b.system := applyPushes_system ps b
      have hroles : ∀ m ∈ ps.map PushCall.toMsg, m.role = "user" ∨ m.role = "assistant" := by
        intro m hm
        rcases List.mem_map.mp hm with ⟨q, _, rfl⟩
        cases q with
        | user t => exact Or.inl rfl
        | assistant t => exact Or.inr rfl
      have hstep :
          truncateHistory b.history_capacity b.system
              (systemMsg b.system :: (lastN b.history_capacity (ps.map PushCall.toMsg)
                ++ [PushCall.toMsg p]))
            = systemMsg b.system
                :: lastN b.history_capacity (ps.map PushCall.toMsg ++ [PushCall.toMsg p]) := by
        refine truncate_canonical_step _ hcap _ _ hroles _ ?_
        cases p with
        | user t2 => exact Or.inl rfl
        | assistant t2 => exact Or.inr rfl
      cases p with
      | user t =>
          show (pushUser (applyPushes b ps) t).history = _
          unfold pushUser
          simp only [hcap2, hsys2, ih]
          rw [show (⟨"user", t⟩ : Msg) = PushCall.toMsg (PushCall.user t) from rfl]
          rw [List.cons_append, hstep]
          simp
      | assistant t =>
          show (pushAssistant (applyPushes b ps) t).history = _
          unfold pushAssistant
          simp only [hcap2, hsys2, ih]
          rw [show (⟨"assistant", t⟩ : Msg) = PushCall.toMsg (PushCall.assistant t) from rfl]
          rw [List.cons_append, hstep]
          simp

/-- C2 counterexample: with `history_capacity = 0`, pushing one
user/assistant pair onto a freshly seeded history leaves three messages,
exceeding the claimed bound `capacity + 1 = 1` — Python's guarded slice
`rest[-0:]` is the whole list, so a capacity of zero never truncates. -/
theorem c2_counterexample :
    (applyPushes ⟨"ollama", "m", "h", 0, 3, "s".toList, [systemMsg "s".toList]⟩
        [PushCall.user "a".toList, PushCall.assistant "b".toList]).history.length = 3 ∧
    ¬((applyPushes ⟨"ollama", "m", "h", 0, 3, "s".toList, [systemMsg "s".toList]⟩
        [PushCall.user "a".toList, PushCall.assistant "b".toList]).history.length ≤ 0 + 1) := by
  exact ⟨by decide, by decide⟩

/-- C2 (amended): for every capacity ≥ 1, every history starting as the
single system message and every finite sequence of `push_user` /
`push_assistant` calls, the resulting history (hence the state after each
intermediate call, which is the same statement for a prefix of the
sequence) has length at most `capacity + 1`, keeps the original system
message at position 0, and its remainder is a suffix of the pushed
messages — truncation only ever removes the oldest non-system messages. -/
theorem c2_history_invariant (b : Backend) (hcap : 1 ≤ b.history_capacity)
    (hh : b.history = [systemMsg b.system]) (ps : List PushCall) :
    (applyPushes b ps).history.length ≤ b.history_capacity + 1 ∧
    (applyPushes b ps).history.head? = some (systemMsg b.system) ∧
    ∃ k, (applyPushes b ps).history
        = systemMsg b.system :: (ps.map PushCall.toMsg).drop k := by
  rw [applyPushes_history b hcap hh ps]
  refine ⟨?_, rfl, ⟨(ps.map PushCall.toMsg).length - b.history_capacity, rfl⟩⟩
  have hl := lastN_length b.history_capacity (ps.map PushCall.toMsg)
  simp only [List.length_cons, hl]
  omega

/-- Witness for C2 at capacity 1 with three pushes. -/
theorem c2_history_invariant_witness :
    (applyPushes ⟨"ollama", "m", "h", 1, 3, "s".toList, [systemMsg "s".toList]⟩
        [PushCall.user "a".toList, PushCall.assistant "b".toList,
          PushCall.user "c".toList]).history.length
      ≤ (⟨"ollama", "m", "h", 1, 3, "s".toList,
          [systemMsg "s".toList]⟩ : Backend).history_capacity + 1 ∧
    (applyPushes ⟨"ollama", "m", "h", 1, 3, "s".toList, [systemMsg "s".toList]⟩
        [PushCall.user "a".toList, PushCall.assistant "b".toList,
          PushCall.user "c".toList]).history.head?
      = some (systemMsg (⟨"ollama", "m", "h", 1, 3, "s".toList,
          [systemMsg "s".toList]⟩ : Backend).system) ∧
    ∃ k, (applyPushes ⟨"ollama", "m", "h", 1, 3, "s".toList, [systemMsg "s".toList]⟩
        [PushCall.user "a".toList, PushCall.assistant "b".toList,
          PushCall.user "c".toList]).history
        = systemMsg (⟨"ollama", "m", "h", 1, 3, "s".toList,
            [systemMsg "s".toList]⟩ : Backend).system
          :: (([PushCall.user "a".toList, PushCall.assistant "b".toList,
              PushCall.user "c".toList]).map PushCall.toMsg).drop k :=
  c2_history_invariant _ (by decide) (by decide) _

/-- The push-call sequence of a list of user/assistant pairs. -/
def pairPushes (pairs : List (List Char × List Char)) : List PushCall :=
  (pairs.map (fun pr => [PushCall.user pr.1, PushCall.assistant pr.2])).flatten

lemma pairPushes_length (pairs : List (List Char × List Char)) :
    (pairPushes pairs).length = 2 * pairs.length := by
  induction pairs with
  | nil => rfl
  | cons pr rest ih =>
      simp only [pairPushes, List.map_cons, List.flatten_cons] at ih ⊢
      simp [ih]
      omega

/-- C4 counterexample: with capacity 2, pushing `capacity + 5 = 7`
user/assistant pairs leaves the system message plus the final single pair
(the last 2 = capacity messages), i.e. 3 messages — not the claimed most
recent 2 pairs plus system (5 messages). -/
theorem c4_counterexample :
    (applyPushes ⟨"ollama", "m", "h", 2, 3, "s".toList, [systemMsg "s".toList]⟩
        (pairPushes [("u1".toList, "a1".toList), ("u2".toList, "a2".toList),
          ("u3".toList, "a3".toList), ("u4".toList, "a4".toList),
          ("u5".toList, "a5".toList), ("u6".toList, "a6".toList),
          ("u7".toList, "a7".toList)])).history
      = [systemMsg "s".toList, ⟨"user", "u7".toList⟩, ⟨"assistant", "a7".toList⟩] ∧
    (applyPushes ⟨"ollama", "m", "h", 2, 3, "s".toList, [systemMsg "s".toList]⟩
        (pairPushes [("u1".toList, "a1".toList), ("u2".toList, "a2".toList),
          ("u3".toList, "a3".toList), ("u4".toList, "a4".toList),
          ("u5".toList, "a5".toList), ("u6".toList, "a6".toList),
          ("u7".toList, "a7".toList)])).history.length ≠ 2 * 2 + 1 := by
  exact ⟨by decide, by decide⟩

/-- C4 (amended): the truncation bound counts messages, not pairs — pushing
`capacity + 5` user/assistant pairs onto a freshly seeded history (capacity
≥ 1) leaves the original system message at position 0 followed by exactly
the most recent `capacity` of the pushed messages, a history of
`capacity + 1` messages in total (for even capacity these are the most
recent `capacity / 2` pairs). -/
theorem c4_truncation_keeps_capacity_messages (b : Backend) (hcap : 1 ≤ b.history_capacity)
    (hh : b.history = [systemMsg b.system]) (pairs : List (List Char × List Char))
    (hlen : pairs.length = b.history_capacity + 5) :
    (applyPushes b (pairPushes pairs)).history
      = systemMsg b.system :: lastN b.history_capacity ((pairPushes pairs).map PushCall.toMsg) ∧
    (applyPushes b (pairPushes pairs)).history.length = b.history_capacity + 1 := by
  refine ⟨applyPushes_history b hcap hh _, ?_⟩
  rw [applyPushes_history b hcap hh _]
  have hl := lastN_length b.history_capacity ((pairPushes pairs).map PushCall.toMsg)
  simp only [List.length_cons, hl, List.length_map, pairPushes_length, hlen]
  omega

/-- Witness for C4 at capacity 2 with seven concrete pairs. -/
theorem c4_truncation_keeps_capacity_messages_witness :
    (applyPushes ⟨"ollama", "m", "h", 2, 3, "s".toList, [systemMsg "s".toList]⟩
        (pairPushes [("u1".toList, "a1".toList), ("u2".toList, "a2".toList),
          ("u3".toList, "a3".toList), ("u4".toList, "a4".toList),
          ("u5".toList, "a5".toList), ("u6".toList, "a6".toList),
          ("u7".toList, "a7".toList)])).history
      = systemMsg (⟨"ollama", "m", "h", 2, 3, "s".toList,
          [systemMsg "s".toList]⟩ : Backend).system
        :: lastN (⟨"ollama", "m", "h", 2, 3, "s".toList,
            [systemMsg "s".toList]⟩ : Backend).history_capacity
          ((pairPushes [("u1".toList, "a1".toList), ("u2".toList, "a2".toList),
            ("u3".toList, "a3".toList), ("u4".toList, "a4".toList),
            ("u5".toList, "a5".toList), ("u6".toList, "a6".toList),
            ("u7".toList, "a7".toList)]).map PushCall.toMsg) ∧
    (applyPushes ⟨"ollama", "m", "h", 2, 3, "s".toList, [systemMsg "s".toList]⟩
        (pairPushes [("u1".toList, "a1".toList), ("u2".toList, "a2".toList),
          ("u3".toList, "a3".toList), ("u4".toList, "a4".toList),
          ("u5".toList, "a5".toList), ("u6".toList, "a6".toList),
          ("u7".toList, "a7".toList)])).history.length
      = (⟨"ollama", "m", "h", 2, 3, "s".toList,
          [systemMsg "s".toList]⟩ : Backend).history_capacity + 1 :=
  c4_truncation_keeps_capacity_messages _ (by decide) (by decide) _ (by decide)

/-! ## Chunk structure lemmas -/

lemma chunkJoin_nil : chunkJoin [] = [] := rfl

lemma chunkJoin_cons (c : Chunk) (cs : List Chunk) :
    chunkJoin (c :: cs)
      = c.1 ++ (match c.2 with | some d => [d] | none => []) ++ chunkJoin cs := rfl

lemma chunkJoin_cons_some (seg : List Char) (d : Char) (cs : List Chunk) :
    chunkJoin ((seg, some d) :: cs) = seg ++ [d] ++ chunkJoin cs := rfl

lemma chunkJoin_cons_none (seg : List Char) (cs : List Chunk) :
    chunkJoin ((seg, none) :: cs) = seg ++ chunkJoin cs := by
  rw [chunkJoin_cons]
  simp

/-- Splitting re-assembles to the accumulator followed by the input. -/
lemma chunkJoin_splitChunksAux : ∀ (s acc : List Char),
    chunkJoin (splitChunksAux acc s) = acc ++ s := by
  intro s
  induction s with
  | nil =>
      intro acc
      by_cases hacc : acc = []
      · simp [splitChunksAux, hacc, chunkJoin]
      · simp [splitChunksAux, hacc, chunkJoin]
  | cons c rest ih =>
      intro acc
      by_cases hc : isDelimChar c = true
      · simp only [splitChunksAux, hc, if_pos, reduceIte, chunkJoin_cons, ih]
        simp
      · simp only [splitChunksAux, hc, Bool.false_eq_true, if_neg, reduceIte, ih]
        simp

lemma chunkJoin_splitChunks (s : List Char) : chunkJoin (splitChunks s) = s :=
  chunkJoin_splitChunksAux s []

/-- Splitting an empty text gives no chunks, and conversely. -/
lemma splitChunks_eq_nil_iff (s : List Char) : splitChunks s = [] ↔ s = [] := by
  constructor
  · intro h
    have := chunkJoin_splitChunks s
    rw [h] at this
    exact this.symm
  · rintro rfl
    rfl

/-- The accumulator only prepends onto the first chunk. -/
lemma splitChunksAux_acc : ∀ (s acc : List Char),
    splitChunksAux acc s
      = match splitChunksAux [] s with
        | [] => if acc = [] then [] else [(acc, none)]
        | (seg, d) :: rest => (acc ++ seg, d) :: rest := by
  intro s
  induction s with
  | nil => intro acc; simp [splitChunksAux]
  | cons c rest ih =>
      intro acc
      by_cases hc : isDelimChar c = true
      · simp [splitChunksAux, hc]
      · rw [show splitChunksAux acc (c :: rest)
            = splitChunksAux (acc ++ [c]) rest from by simp [splitChunksAux, hc]]
        rw [show splitChunksAux [] (c :: rest)
            = splitChunksAux [c] rest from by simp [splitChunksAux, hc]]
        rw [ih (acc ++ [c]), ih [c]]
        cases hrest : splitChunksAux [] rest with
        | nil => simp
        | cons c0 rest0 =>
            obtain ⟨seg, d⟩ := c0
            simp

/-- A run of non-delimiter characters is absorbed into the accumulator. -/
lemma splitChunksAux_nodelim_front : ∀ (w : List Char), (∀ c ∈ w, isDelimChar c = false) →
    ∀ (acc s : List Char), splitChunksAux acc (w ++ s) = splitChunksAux (acc ++ w) s := by
  intro w
  induction w with
  | nil => intro _ acc s; simp
  | cons c w2 ih =>
      intro hw acc s
      have hc : isDelimChar c = false := hw c (List.mem_cons_self c w2)
      simp only [List.cons_append, splitChunksAux, hc, Bool.false_eq_true, if_neg, reduceIte,
        List.append_eq]
      rw [ih (fun x hx => hw x (List.mem_cons_of_mem _ hx))]
      simp

/-! ## Substring and whitespace lemmas -/

lemma isPrefixL_iff : ∀ (f s : List Char), isPrefixL f s = true ↔ f <+: s := by
  intro f
  induction f with
  | nil => intro s; simp [isPrefixL]
  | cons a as ih =>
      intro s
      cases s with
      | nil => simp [isPrefixL]
      | cons b bs =>
          simp only [isPrefixL, Bool.and_eq_true, beq_iff_eq, ih, List.cons_prefix_cons]

lemma hasSub_iff (f : List Char) : ∀ (s : List Char), hasSub f s = true ↔ f <:+: s := by
  intro s
  induction s with
  | nil =>
      simp only [hasSub, isPrefixL_iff, List.infix_nil]
      constructor
      · intro h; exact List.prefix_nil.mp h
      · rintro rfl; exact List.nil_prefix
  | cons c rest ih =>
      simp only [hasSub, Bool.or_eq_true, isPrefixL_iff, ih, List.infix_cons_iff]

/-- Substring search is monotone along the infix order. -/
lemma hasSub_mono {f x y : List Char} (hxy : x <:+: y) (h : hasSub f x = true) :
    hasSub f y = true :=
  (hasSub_iff f y).mpr (((hasSub_iff f x).mp h).trans hxy)

lemma ws_not_delim (c : Char) (h : isWsChar c = true) : isDelimChar c = false := by
  simp only [isWsChar, Bool.or_eq_true, beq_iff_eq] at h
  rcases h with ((((h | h) | h) | h) | h) | h <;> subst h <;> decide

lemma toLower_ws (c : Char) (h : isWsChar c = true) : Char.toLower c = c := by
  simp only [isWsChar, Bool.or_eq_true, beq_iff_eq] at h
  rcases h with ((((h | h) | h) | h) | h) | h <;> subst h <;> decide

lemma toLowerL_all_ws (w : List Char) (hw : ∀ c ∈ w, isWsChar c = true) :
    ∀ c ∈ toLowerL w, isWsChar c = true := by
  intro c hc
  rcases List.mem_map.mp hc with ⟨x, hx, rfl⟩
  rw [toLower_ws x (hw x hx)]
  exact hw x hx

/-- A literal whose last character is not whitespace is never a prefix of an
all-whitespace text. -/
lemma isPrefixL_allws_false_last : ∀ (f w : List Char), f ≠ [] →
    (∀ c, f.getLast? = some c → isWsChar c = false) →
    (∀ c ∈ w, isWsChar c = true) → isPrefixL f w = false := by
  intro f
  induction f with
  | nil => intro w hne; exact absurd rfl hne
  | cons fh ft ih =>
      intro w _ hlast hw
      cases w with
      | nil => rfl
      | cons c w2 =>
          cases ft with
          | nil =>
              have hfh : isWsChar fh = false := hlast fh rfl
              have hc : isWsChar c = true := hw c (List.mem_cons_self c w2)
              have hne : fh ≠ c := by
                intro hEq; rw [hEq, hc] at hfh; simp at hfh
              simp [isPrefixL, hne]
          | cons g gt =>
              have hrec : isPrefixL (g :: gt) w2 = false :=
                ih w2 (by simp)
                  (fun d hd => hlast d (by rw [List.getLast?_cons_cons]; exact hd))
                  (fun d hd => hw d (List.mem_cons_of_mem _ hd))
              simp [isPrefixL, hrec]

/-- A literal whose head is not whitespace is never a prefix of an
all-whitespace text. -/
lemma isPrefixL_allws_false_head (fh : Char) (ft : List Char) (hfh : isWsChar fh = false) :
    ∀ (w : List Char), (∀ c ∈ w, isWsChar c = true) → isPrefixL (fh :: ft) w = false := by
  intro w hw
  cases w with
  | nil => rfl
  | cons c w2 =>
      have hc : isWsChar c = true := hw c (List.mem_cons_self c w2)
      have hne : fh ≠ c := by
        intro hEq; rw [hEq, hc] at hfh; exact absurd hfh (by simp)
      simp [isPrefixL, hne]

/-- Prepending whitespace does not affect the search for a literal whose
head is not whitespace. -/
lemma hasSub_ws_front (fh : Char) (ft : List Char) (hfh : isWsChar fh = false) :
    ∀ (w x : List Char), (∀ c ∈ w, isWsChar c = true) →
      hasSub (fh :: ft) (w ++ x) = hasSub (fh :: ft) x := by
  intro w
  induction w with
  | nil => intro x _; rfl
  | cons c w2 ih =>
      intro x hw
      have hc : isWsChar c = true := hw c (List.mem_cons_self c w2)
      have hne : fh ≠ c := by
        intro hEq; rw [hEq, hc] at hfh; simp at hfh
      simp only [List.cons_append, hasSub, isPrefixL, List.append_eq]
      rw [ih x (fun d hd => hw d (List.mem_cons_of_mem _ hd))]
      simp [beq_eq_false_iff_ne.mpr hne]

/-- Appending whitespace does not affect a prefix test against a literal
whose last character is not whitespace. -/
lemma isPrefixL_append_ws : ∀ (y f w : List Char), f ≠ [] →
    (∀ c, f.getLast? = some c → isWsChar c = false) →
    (∀ c ∈ w, isWsChar c = true) → isPrefixL f (y ++ w) = isPrefixL f y := by
  intro y
  induction y with
  | nil =>
      intro f w hne hlast hw
      rw [List.nil_append]
      rw [isPrefixL_allws_false_last f w hne hlast hw]
      cases f with
      | nil => exact absurd rfl hne
      | cons fh ft => rfl
  | cons yh yt ih =>
      intro f w hne hlast hw
      cases f with
      | nil => exact absurd rfl hne
      | cons fh ft =>
          cases ft with
          | nil => simp [isPrefixL]
          | cons g gt =>
              simp only [List.cons_append, isPrefixL, List.append_eq]
              rw [ih (g :: gt) w (by simp)
                (fun d hd => hlast d (by rw [List.getLast?_cons_cons]; exact hd)) hw]

/-- A literal with a non-whitespace head and last character never occurs in
all-whitespace text. -/
lemma hasSub_allws_false (f : List Char) (hne : f ≠ [])
    (hlast : ∀ c, f.getLast? = some c → isWsChar c = false) :
    ∀ (w : List Char), (∀ c ∈ w, isWsChar c = true) → hasSub f w = false := by
  intro w
  induction w with
  | nil =>
      intro _
      cases f with
      | nil => exact absurd rfl hne
      | cons fh ft => rfl
  | cons c w2 ih =>
      intro hw
      simp only [hasSub]
      rw [isPrefixL_allws_false_last f (c :: w2) hne hlast hw,
        ih (fun d hd => hw d (List.mem_cons_of_mem _ hd))]
      rfl

/-- Appending whitespace does not affect the search for a literal whose
last character is not whitespace. -/
lemma hasSub_append_ws : ∀ (x f w : List Char), f ≠ [] →
    (∀ c, f.getLast? = some c → isWsChar c = false) →
    (∀ c ∈ w, isWsChar c = true) → hasSub f (x ++ w) = hasSub f x := by
  intro x
  induction x with
  | nil =>
      intro f w hne hlast hw
      rw [List.nil_append, hasSub_allws_false f hne hlast w hw]
      cases f with
      | nil => exact absurd rfl hne
      | cons fh ft => rfl
  | cons c x2 ih =>
      intro f w hne hlast hw
      simp only [List.cons_append, hasSub, List.append_eq]
      rw [show c :: (x2 ++ w) = (c :: x2) ++ w from rfl,
        isPrefixL_append_ws (c :: x2) f w hne hlast hw, ih f w hne hlast hw]

/-! ## Trim lemmas -/

lemma dropWhile_idem (p : Char → Bool) : ∀ (l : List Char),
    (l.dropWhile p).dropWhile p = l.dropWhile p := by
  intro l
  induction l with
  | nil => rfl
  | cons c t ih =>
      by_cases hc : p c = true
      · simp only [List.dropWhile_cons, hc, reduceIte]
        exact ih
      · simp only [List.dropWhile_cons, hc]
        simp [hc]

lemma ltrim_ws_append (w s : List Char) (hw : ∀ c ∈ w, isWsChar c = true) :
    ltrim (w ++ s) = ltrim s := by
  induction w with
  | nil => rfl
  | cons c w2 ih =>
      have hc : isWsChar c = true := hw c (List.mem_cons_self c w2)
      simp only [List.cons_append, ltrim, List.dropWhile_cons, hc, reduceIte]
      exact ih (fun d hd => hw d (List.mem_cons_of_mem _ hd))

lemma ltrim_all_ws (w : List Char) (hw : ∀ c ∈ w, isWsChar c = true) : ltrim w = [] := by
  have := ltrim_ws_append w [] hw
  simpa using this

lemma rtrim_append_ws (s w : List Char) (hw : ∀ c ∈ w, isWsChar c = true) :
    rtrim (s ++ w) = rtrim s := by
  unfold rtrim
  rw [List.reverse_append]
  rw [show List.dropWhile isWsChar (w.reverse ++ s.reverse) = ltrim (w.reverse ++ s.reverse)
    from rfl]
  rw [ltrim_ws_append w.reverse s.reverse (fun c hc => hw c (List.mem_reverse.mp hc))]
  rfl

lemma rtrim_all_ws (w : List Char) (hw : ∀ c ∈ w, isWsChar c = true) : rtrim w = [] := by
  have := rtrim_append_ws [] w hw
  simpa [rtrim] using this

lemma pyStrip_ws_front (w s : List Char) (hw : ∀ c ∈ w, isWsChar c = true) :
    pyStrip (w ++ s) = pyStrip s := by
  unfold pyStrip
  rw [ltrim_ws_append w s hw]

lemma pyStrip_ws_suffix (s w : List Char) (hw : ∀ c ∈ w, isWsChar c = true) :
    pyStrip (s ++ w) = pyStrip s := by
  unfold pyStrip ltrim
  rw [List.dropWhile_append]
  by_cases hs : (s.dropWhile isWsChar).isEmpty
  · simp only [hs, reduceIte]
    rw [show w.dropWhile isWsChar = ltrim w from rfl, ltrim_all_ws w hw]
    rw [List.isEmpty_iff] at hs
    rw [hs]
  · simp only [hs, Bool.false_eq_true, reduceIte]
    exact rtrim_append_ws _ w hw

lemma ltrim_idem (s : List Char) : ltrim (ltrim s) = ltrim s := dropWhile_idem isWsChar s

lemma rtrim_idem (s : List Char) : rtrim (rtrim s) = rtrim s := by
  unfold rtrim
  rw [List.reverse_reverse, dropWhile_idem]

lemma rtrim_isPrefix_self (s : List Char) : rtrim s <+: s := by
  have hsuf : s.reverse.dropWhile isWsChar <:+ s.reverse := List.dropWhile_suffix _
  have := hsuf.reverse
  rwa [List.reverse_reverse] at this

/-- Left-trimming is the identity after a right trim of a left-trimmed
text. -/
lemma ltrim_rtrim_ltrim (s : List Char) : ltrim (rtrim (ltrim s)) = rtrim (ltrim s) := by
  cases hx : rtrim (ltrim s) with
  | nil => rfl
  | cons c t =>
      have hpre : rtrim (ltrim s) <+: ltrim s := rtrim_isPrefix_self _
      rw [hx] at hpre
      obtain ⟨u, hu⟩ := hpre
      have hln : ltrim (ltrim s) = ltrim s := ltrim_idem s
      rw [← hu] at hln
      simp only [List.cons_append, ltrim, List.dropWhile_cons] at hln
      by_cases hc : isWsChar c = true
      · rw [if_pos hc] at hln
        have hlen := congrArg List.length hln
        have h1 : (List.dropWhile isWsChar (t ++ u)).length ≤ (t ++ u).length :=
          (List.dropWhile_suffix isWsChar).length_le
        simp only [List.length_append, List.length_cons] at hlen h1
        omega
      · simp only [ltrim, List.dropWhile_cons, hc]
        simp [hc]

lemma pyStrip_idem (s : List Char) : pyStrip (pyStrip s) = pyStrip s := by
  unfold pyStrip
  rw [ltrim_rtrim_ltrim, rtrim_idem]

/-- Strip of an all-whitespace text is empty. -/
lemma pyStrip_all_ws (w : List Char) (hw : ∀ c ∈ w, isWsChar c = true) : pyStrip w = [] := by
  unfold pyStrip
  rw [ltrim_all_ws w hw]
  rfl

/-! ## Well-formed chunk lists and re-splitting -/

/-- A chunk list as produced by `splitChunks`: segments are delimiter-free,
every chunk but the last carries its delimiter, and a trailing
delimiter-less chunk is nonempty. -/
def wfChunks : List Chunk → Prop
  | [] => True
  | [(seg, none)] => seg ≠ [] ∧ ∀ c ∈ seg, isDelimChar c = false
  | (_, none) :: _ :: _ => False
  | (seg, some d) :: rest => (∀ c ∈ seg, isDelimChar c = false) ∧ isDelimChar d = true ∧ wfChunks rest

lemma wfChunks_splitChunksAux : ∀ (s acc : List Char),
    (∀ c ∈ acc, isDelimChar c = false) → wfChunks (splitChunksAux acc s) := by
  intro s
  induction s with
  | nil =>
      intro acc hacc
      by_cases h : acc = []
      · simp [splitChunksAux, h, wfChunks]
      · simp only [splitChunksAux, h, reduceIte]
        exact ⟨h, hacc⟩
  | cons c rest ih =>
      intro acc hacc
      by_cases hc : isDelimChar c = true
      · simp only [splitChunksAux, hc, reduceIte]
        have hr := ih [] (by simp)
        cases hrest : splitChunksAux [] rest with
        | nil => exact ⟨hacc, hc, trivial⟩
        | cons c0 rest0 =>
            rw [hrest] at hr
            exact ⟨hacc, hc, hr⟩
      · simp only [splitChunksAux, hc, Bool.false_eq_true, reduceIte]
        refine ih (acc ++ [c]) ?_
        intro d hd
        rcases List.mem_append.mp hd with h1 | h2
        · exact hacc d h1
        · rcases List.mem_singleton.mp h2 with rfl
          simpa using hc

lemma wfChunks_splitChunks (s : List Char) : wfChunks (splitChunks s) :=
  wfChunks_splitChunksAux s [] (by simp)

lemma wfChunks_filter (p : Chunk → Bool) : ∀ (cs : List Chunk),
    wfChunks cs → wfChunks (cs.filter p) := by
  intro cs
  induction cs with
  | nil => intro _; trivial
  | cons c rest ih =>
      obtain ⟨seg, o⟩ := c
      cases o with
      | some d =>
          intro h
          obtain ⟨hseg, hd, hrest⟩ : (∀ c ∈ seg, isDelimChar c = false) ∧
              isDelimChar d = true ∧ wfChunks rest := h
          by_cases hp : p (seg, some d) = true
          · rw [List.filter_cons_of_pos hp]
            have hr := ih hrest
            cases hfr : (rest.filter p) with
            | nil => exact ⟨hseg, hd, trivial⟩
            | cons c0 rest0 =>
                rw [hfr] at hr
                exact ⟨hseg, hd, hr⟩
          · rw [List.filter_cons_of_neg (by simpa using hp)]
            exact ih hrest
      | none =>
          cases rest with
          | nil =>
              intro h
              obtain ⟨hne, hseg⟩ : seg ≠ [] ∧ ∀ c ∈ seg, isDelimChar c = false := h
              by_cases hp : p (seg, none) = true
              · rw [List.filter_cons_of_pos hp, List.filter_nil]
                exact ⟨hne, hseg⟩
              · rw [List.filter_cons_of_neg (by simpa using hp), List.filter_nil]
                trivial
          | cons c2 rest2 => intro h; exact absurd h (by simp [wfChunks])

/-- Splitting is a left inverse of joining on well-formed chunk lists. -/
lemma splitChunks_chunkJoin : ∀ (cs : List Chunk), wfChunks cs →
    splitChunks (chunkJoin cs) = cs := by
  intro cs
  induction cs with
  | nil => intro _; rfl
  | cons c rest ih =>
      obtain ⟨seg, o⟩ := c
      cases o with
      | some d =>
          intro h
          obtain ⟨hseg, hd, hrest⟩ : (∀ c ∈ seg, isDelimChar c = false) ∧
              isDelimChar d = true ∧ wfChunks rest := h
          rw [chunkJoin_cons_some, List.append_assoc]
          unfold splitChunks
          rw [splitChunksAux_nodelim_front seg hseg [] ([d] ++ chunkJoin rest)]
          rw [List.nil_append, List.singleton_append]
          simp only [splitChunksAux, hd, reduceIte]
          rw [show splitChunksAux [] (chunkJoin rest) = splitChunks (chunkJoin rest) from rfl]
          rw [ih hrest]
      | none =>
          cases rest with
          | nil =>
              intro h
              obtain ⟨hne, hseg⟩ : seg ≠ [] ∧ ∀ c ∈ seg, isDelimChar c = false := h
              rw [chunkJoin_cons_none, chunkJoin_nil, List.append_nil]
              rw [show seg = seg ++ [] from (List.append_nil seg).symm]
              unfold splitChunks
              rw [splitChunksAux_nodelim_front seg hseg [] []]
              simp [splitChunksAux, hne]
          | cons c2 rest2 => intro h; exact absurd h (by simp [wfChunks])

/-- Each chunk's segment occurs contiguously in the joined text. -/
lemma seg_infix_chunkJoin : ∀ (cs : List Chunk) (c : Chunk), c ∈ cs →
    c.1 <:+: chunkJoin cs := by
  intro cs
  induction cs with
  | nil => intro c hc; exact absurd hc (by simp)
  | cons ch rest ih =>
      intro c hc
      rcases List.mem_cons.mp hc with rfl | hc2
      · obtain ⟨seg, o⟩ := c
        cases o with
        | some d =>
            rw [chunkJoin_cons_some, List.append_assoc]
            exact (List.prefix_append seg _).isInfix
        | none =>
            rw [chunkJoin_cons_none]
            exact (List.prefix_append seg _).isInfix
      · have hsuff : chunkJoin rest <:+ chunkJoin (ch :: rest) := by
          rw [chunkJoin_cons]
          exact List.suffix_append _ _
        exact (ih c hc2).trans hsuff.isInfix

/-- Each segment of `splitChunks s` occurs contiguously in `s`. -/
lemma seg_infix_splitChunks (s : List Char) (c : Chunk) (hc : c ∈ splitChunks s) :
    c.1 <:+: s := by
  have := seg_infix_chunkJoin (splitChunks s) c hc
  rwa [chunkJoin_splitChunks] at this

/-! ## Sentence removal under trimming -/

/-- Shape of a forbidden literal: nonempty with non-whitespace first and
last characters (true of every term in the code's list). -/
def termOk (f : List Char) : Bool :=
  !f.isEmpty && (f.head?.all fun c => !isWsChar c) && (f.getLast?.all fun c => !isWsChar c)

lemma termOk_ne {f : List Char} (h : termOk f = true) : f ≠ [] := by
  intro hf
  subst hf
  simp [termOk] at h

lemma termOk_head {f : List Char} (h : termOk f = true) :
    ∀ c, f.head? = some c → isWsChar c = false := by
  intro c hc
  simp only [termOk, Bool.and_eq_true] at h
  have h2 := h.1.2
  rw [hc] at h2
  simpa using h2

lemma termOk_last {f : List Char} (h : termOk f = true) :
    ∀ c, f.getLast? = some c → isWsChar c = false := by
  intro c hc
  simp only [termOk, Bool.and_eq_true] at h
  have h2 := h.2
  rw [hc] at h2
  simpa using h2

/-- Searching for a well-shaped literal ignores a whitespace prefix. -/
lemma hasSub_ws_front_term {f : List Char} (hterm : termOk f = true)
    (w x : List Char) (hw : ∀ c ∈ w, isWsChar c = true) :
    hasSub f (w ++ x) = hasSub f x := by
  cases f with
  | nil => exact absurd rfl (termOk_ne hterm)
  | cons fh ft =>
      exact hasSub_ws_front fh ft (termOk_head hterm fh rfl) w x hw

/-- `splitChunks` of a delimiter-free text. -/
lemma splitChunks_nodelim (s : List Char) (h : ∀ c ∈ s, isDelimChar c = false) :
    splitChunks s = if s = [] then [] else [(s, none)] := by
  unfold splitChunks
  rw [show s = s ++ [] from (List.append_nil s).symm, splitChunksAux_nodelim_front s h [] []]
  simp [splitChunksAux]

/-- `splitChunks` after a delimiter-free prefix. -/
lemma splitChunks_nodelim_front (w s : List Char) (hw : ∀ c ∈ w, isDelimChar c = false) :
    splitChunks (w ++ s)
      = match splitChunks s with
        | [] => if w = [] then [] else [(w, none)]
        | (seg, d) :: rest => (w ++ seg, d) :: rest := by
  unfold splitChunks
  rw [splitChunksAux_nodelim_front w hw [] s, List.nil_append, splitChunksAux_acc]

/-- `splitChunks` splits off a leading chunk at the first delimiter. -/
lemma splitChunks_head_delim (pre : List Char) (d : Char) (r : List Char)
    (hpre : ∀ c ∈ pre, isDelimChar c = false) (hd : isDelimChar d = true) :
    splitChunks (pre ++ d :: r) = (pre, some d) :: splitChunks r := by
  unfold splitChunks
  rw [splitChunksAux_nodelim_front pre hpre [] (d :: r), List.nil_append]
  simp [splitChunksAux, hd]

lemma removeFor_nil (f : List Char) : removeFor f [] = [] := rfl

lemma toLowerL_append (a b : List Char) : toLowerL (a ++ b) = toLowerL a ++ toLowerL b :=
  List.map_append _ a b

lemma chunkJoin_cons_seg_append (w seg : List Char) (d : Option Char) (K : List Chunk) :
    chunkJoin ((w ++ seg, d) :: K) = w ++ chunkJoin ((seg, d) :: K) := by
  cases d with
  | some d0 => rw [chunkJoin_cons_some, chunkJoin_cons_some]; simp
  | none => rw [chunkJoin_cons_none, chunkJoin_cons_none]; simp

/-- A well-shaped literal does not occur in all-whitespace text. -/
lemma chunkHas_allws_false {f : List Char} (hterm : termOk f = true)
    (w : List Char) (hw : ∀ c ∈ w, isWsChar c = true) (d : Option Char) :
    chunkHas f (w, d) = false := by
  unfold chunkHas
  exact hasSub_allws_false f (termOk_ne hterm) (termOk_last hterm) _ (toLowerL_all_ws w hw)

/-- Stripping leading whitespace before removing a literal's sentences gives
the same stripped result. -/
lemma pyStrip_removeFor_ltrim (f : List Char) (hterm : termOk f = true) (t : List Char) :
    pyStrip (removeFor f (ltrim t)) = pyStrip (removeFor f t) := by
  have hdecomp : t = t.takeWhile isWsChar ++ ltrim t :=
    (List.takeWhile_append_dropWhile isWsChar t).symm
  have hw : ∀ c ∈ t.takeWhile isWsChar, isWsChar c = true :=
    fun c hc => List.mem_takeWhile_imp hc
  have hwnd : ∀ c ∈ t.takeWhile isWsChar, isDelimChar c = false :=
    fun c hc => ws_not_delim c (hw c hc)
  conv_rhs => rw [hdecomp]
  cases hcs : splitChunks (ltrim t) with
  | nil =>
      have hs : ltrim t = [] := (splitChunks_eq_nil_iff _).mp hcs
      rw [hs, List.append_nil, removeFor_nil]
      unfold removeFor
      rw [splitChunks_nodelim _ hwnd]
      by_cases hwe : t.takeWhile isWsChar = []
      · simp [hwe, chunkJoin]
      · rw [if_neg hwe]
        rw [List.filter_cons_of_pos (by simp [chunkHas_allws_false hterm _ hw])]
        rw [List.filter_nil, chunkJoin_cons_none, chunkJoin_nil, List.append_nil]
        rw [pyStrip_all_ws _ hw]
        rfl
  | cons c0 rest =>
      obtain ⟨seg, d⟩ := c0
      have hsplit : splitChunks (t.takeWhile isWsChar ++ ltrim t)
          = (t.takeWhile isWsChar ++ seg, d) :: rest := by
        rw [splitChunks_nodelim_front _ _ hwnd, hcs]
      have hbadeq : chunkHas f (t.takeWhile isWsChar ++ seg, d) = chunkHas f (seg, d) := by
        unfold chunkHas
        rw [toLowerL_append]
        exact hasSub_ws_front_term hterm _ _ (toLowerL_all_ws _ hw)
      unfold removeFor
      rw [hcs, hsplit]
      by_cases hbad : chunkHas f (seg, d) = true
      · rw [List.filter_cons_of_neg (by simp [hbad]),
          List.filter_cons_of_neg (by simp [hbadeq, hbad])]
      · rw [List.filter_cons_of_pos (by simp [hbad]),
          List.filter_cons_of_pos (by simp [hbadeq]; simpa using hbad)]
        rw [chunkJoin_cons_seg_append]
        rw [pyStrip_ws_front _ _ hw]

lemma dropWhile_head_not (p : Char → Bool) : ∀ (l : List Char) (x : Char) (xs : List Char),
    l.dropWhile p = x :: xs → p x = false := by
  intro l
  induction l with
  | nil => intro x xs h; exact absurd h (by simp)
  | cons c t ih =>
      intro x xs h
      by_cases hc : p c = true
      · rw [List.dropWhile_cons_of_pos hc] at h
        exact ih x xs h
      · rw [List.dropWhile_cons_of_neg hc] at h
        rcases List.cons.injEq .. ▸ h with ⟨rfl, rfl⟩
        simpa using hc

/-- Appending trailing whitespace either leaves the sentence removal
unchanged (the whitespace was glued to a removed final sentence) or appends
the same whitespace to its result. -/
lemma removeFor_append_ws_cases (f : List Char) (hterm : termOk f = true) :
    ∀ (n : Nat) (s : List Char), s.length ≤ n → ∀ (w : List Char),
      (∀ c ∈ w, isWsChar c = true) →
      removeFor f (s ++ w) = removeFor f s ∨
        removeFor f (s ++ w) = removeFor f s ++ w := by
  intro n
  induction n with
  | zero =>
      intro s hs w hw
      have hse : s = [] := List.length_eq_zero.mp (Nat.le_zero.mp hs)
      subst hse
      rw [List.nil_append, removeFor_nil]
      unfold removeFor
      rw [splitChunks_nodelim w (fun c hc => ws_not_delim c (hw c hc))]
      by_cases hwe : w = []
      · left; simp [hwe, chunkJoin]
      · rw [if_neg hwe]
        right
        rw [List.filter_cons_of_pos (by simp [chunkHas_allws_false hterm _ hw])]
        rw [List.filter_nil, chunkJoin_cons_none, chunkJoin_nil, List.append_nil]
        rfl
  | succ n ih =>
      intro s hs w hw
      have hdecomp : s = s.takeWhile (fun c => !isDelimChar c)
          ++ s.dropWhile (fun c => !isDelimChar c) :=
        (List.takeWhile_append_dropWhile _ s).symm
      have hpre : ∀ c ∈ s.takeWhile (fun c => !isDelimChar c), isDelimChar c = false := by
        intro c hc
        have := List.mem_takeWhile_imp hc
        simpa using this
      cases hr0 : s.dropWhile (fun c => !isDelimChar c) with
      | nil =>
          have hs_nd : ∀ c ∈ s, isDelimChar c = false := by
            intro c hc
            apply hpre
            have h2 := hdecomp
            rw [hr0, List.append_nil] at h2
            rwa [h2] at hc
          have hsw_nd : ∀ c ∈ s ++ w, isDelimChar c = false := by
            intro c hc
            rcases List.mem_append.mp hc with h1 | h2
            · exact hs_nd c h1
            · exact ws_not_delim c (hw c h2)
          unfold removeFor
          rw [splitChunks_nodelim s hs_nd, splitChunks_nodelim (s ++ w) hsw_nd]
          by_cases hse : s = []
          · subst hse
            rw [List.nil_append]
            by_cases hwe : w = []
            · left; simp [hwe, chunkJoin]
            · rw [if_neg hwe, if_pos rfl]
              right
              rw [List.filter_cons_of_pos (by simp [chunkHas_allws_false hterm _ hw])]
              rw [List.filter_nil, chunkJoin_cons_none, chunkJoin_nil, List.append_nil]
              simp [chunkJoin]
          · have hswe : ¬(s ++ w = []) := by simp [hse]
            rw [if_neg hse, if_neg hswe]
            have hbadeq : chunkHas f (s ++ w, none) = chunkHas f (s, none) := by
              unfold chunkHas
              rw [toLowerL_append]
              cases hf : f with
              | nil => exact absurd hf (termOk_ne hterm)
              | cons fh ft =>
                  rw [← hf]
                  exact hasSub_append_ws _ f _ (termOk_ne hterm) (termOk_last hterm)
                    (toLowerL_all_ws w hw)
            by_cases hbad : chunkHas f (s, none) = true
            · have hbadL : chunkHas f (s ++ w, none) = true := by rw [hbadeq]; exact hbad
              left
              rw [List.filter_cons, List.filter_cons]
              simp only [hbadL, hbad, Bool.not_true, Bool.false_eq_true, reduceIte,
                List.filter_nil]
            · have hgoodL : chunkHas f (s ++ w, none) = false := by
                rw [hbadeq]; simpa using hbad
              have hbadR : chunkHas f (s, none) = false := by simpa using hbad
              right
              rw [List.filter_cons, List.filter_cons]
              simp only [hgoodL, hbadR, Bool.not_false, reduceIte, List.filter_nil]
              rw [chunkJoin_cons_none, chunkJoin_cons_none, chunkJoin_nil,
                List.append_nil, List.append_nil]
      | cons d r =>
          have hd : isDelimChar d = true := by
            have := dropWhile_head_not (fun c => !isDelimChar c) s d r hr0
            simpa using this
          have hsplitR : splitChunks s
              = (s.takeWhile (fun c => !isDelimChar c), some d) :: splitChunks r := by
            conv_lhs => rw [hdecomp, hr0]
            exact splitChunks_head_delim _ d r hpre hd
          have hsplitL : splitChunks (s ++ w)
              = (s.takeWhile (fun c => !isDelimChar c), some d) :: splitChunks (r ++ w) := by
            conv_lhs => rw [hdecomp, hr0]
            rw [List.append_assoc, List.cons_append]
            exact splitChunks_head_delim _ d (r ++ w) hpre hd
          have hrlen : r.length ≤ n := by
            have hslen := congrArg List.length hdecomp
            rw [hr0] at hslen
            simp only [List.length_append, List.length_cons] at hslen
            omega
          unfold removeFor
          rw [hsplitR, hsplitL]
          rcases ih r hrlen w hw with hcase | hcase
          · left
            unfold removeFor at hcase
            by_cases hk : chunkHas f (s.takeWhile (fun c => !isDelimChar c), some d) = true
            · rw [List.filter_cons, List.filter_cons]
              simp only [hk, Bool.not_true, Bool.false_eq_true, reduceIte]
              exact hcase
            · have hk2 : chunkHas f (s.takeWhile (fun c => !isDelimChar c), some d) = false := by
                simpa using hk
              rw [List.filter_cons, List.filter_cons]
              simp only [hk2, Bool.not_false, reduceIte]
              rw [chunkJoin_cons_some, chunkJoin_cons_some, hcase]
          · right
            unfold removeFor at hcase
            by_cases hk : chunkHas f (s.takeWhile (fun c => !isDelimChar c), some d) = true
            · rw [List.filter_cons, List.filter_cons]
              simp only [hk, Bool.not_true, Bool.false_eq_true, reduceIte]
              exact hcase
            · have hk2 : chunkHas f (s.takeWhile (fun c => !isDelimChar c), some d) = false := by
                simpa using hk
              rw [List.filter_cons, List.filter_cons]
              simp only [hk2, Bool.not_false, reduceIte]
              rw [chunkJoin_cons_some, chunkJoin_cons_some, hcase]
              simp [List.append_assoc]

/-- Stripping trailing whitespace before removing a literal's sentences
gives the same stripped result. -/
lemma pyStrip_removeFor_rtrim (f : List Char) (hterm : termOk f = true) (t : List Char) :
    pyStrip (removeFor f (rtrim t)) = pyStrip (removeFor f t) := by
  have hdecomp : t = rtrim t ++ (t.reverse.takeWhile isWsChar).reverse := by
    unfold rtrim
    rw [← List.reverse_append, List.takeWhile_append_dropWhile, List.reverse_reverse]
  have hw : ∀ c ∈ (t.reverse.takeWhile isWsChar).reverse, isWsChar c = true := by
    intro c hc
    exact List.mem_takeWhile_imp (List.mem_reverse.mp hc)
  conv_rhs => rw [hdecomp]
  rcases removeFor_append_ws_cases f hterm (rtrim t).length (rtrim t) le_rfl _ hw with h | h
  · rw [h]
  · rw [h, pyStrip_ws_suffix _ _ hw]

/-- Stripping before removing a literal's sentences gives the same stripped
result (model_backend.py line 308's interleaved `strip()` is harmless). -/
lemma pyStrip_removeFor_pyStrip (f : List Char) (hterm : termOk f = true) (t : List Char) :
    pyStrip (removeFor f (pyStrip t)) = pyStrip (removeFor f t) := by
  show pyStrip (removeFor f (rtrim (ltrim t))) = _
  rw [pyStrip_removeFor_rtrim f hterm (ltrim t), pyStrip_removeFor_ltrim f hterm t]

/-! ## The policy loop collapses to a single sentence filter -/

/-- A chunk of `t0` containing a literal forces the whole text to contain
it. -/
lemma chunkHas_imp_hasSub (t0 : List Char) (c : Chunk) (hc : c ∈ splitChunks t0)
    (f : List Char) (h : chunkHas f c = true) : hasSub f (toLowerL t0) = true := by
  unfold chunkHas at h
  have hinf : toLowerL c.1 <:+: toLowerL t0 :=
    List.IsInfix.map Char.toLower (seg_infix_splitChunks t0 c hc)
  exact hasSub_mono hinf h

/-- The whole policy loop (with its once-computed `lowered` guard text and
its per-term strips) equals one filter pass over the sentence chunks of the
original text, followed by a single strip. -/
lemma policyFold_eq (t0 : List Char) :
    ∀ (terms : List (List Char)), (∀ f ∈ terms, termOk f = true) →
    ∀ (P : Chunk → Bool),
      policyFold (toLowerL t0) terms (pyStrip (chunkJoin ((splitChunks t0).filter P)))
        = pyStrip (chunkJoin ((splitChunks t0).filter
            (fun c => P c && terms.all (fun f => !chunkHas f c)))) := by
  intro terms
  induction terms with
  | nil =>
      intro _ P
      unfold policyFold
      rw [List.foldl_nil]
      refine congrArg _ (congrArg _ (List.filter_congr ?_))
      intro c _
      simp
  | cons f rest ih =>
      intro hall P
      have hf : termOk f = true := hall f (List.mem_cons_self f rest)
      have hrest : ∀ g ∈ rest, termOk g = true :=
        fun g hg => hall g (List.mem_cons_of_mem _ hg)
      unfold policyFold
      rw [List.foldl_cons]
      by_cases hguard : hasSub f (toLowerL t0) = true
      · rw [if_pos hguard]
        have hwf : wfChunks ((splitChunks t0).filter P) :=
          wfChunks_filter P _ (wfChunks_splitChunks t0)
        have hstep : pyStrip (removeFor f (pyStrip (chunkJoin ((splitChunks t0).filter P))))
            = pyStrip (chunkJoin ((splitChunks t0).filter
                (fun c => P c && !chunkHas f c))) := by
          rw [pyStrip_removeFor_pyStrip f hf]
          unfold removeFor
          rw [splitChunks_chunkJoin _ hwf, List.filter_filter]
          refine congrArg _ (congrArg _ (List.filter_congr ?_))
          intro c _
          exact Bool.and_comm _ _
        -- restate the folded tail as a policyFold over `rest`
        have htail := ih hrest (fun c => P c && !chunkHas f c)
        unfold policyFold at htail
        rw [hstep, htail]
        refine congrArg _ (congrArg _ (List.filter_congr ?_))
        intro c _
        rw [List.all_cons]
        rw [Bool.and_assoc]
      · rw [if_neg hguard]
        have hnone : ∀ c ∈ splitChunks t0, chunkHas f c = false := by
          intro c hc
          by_contra hcc
          exact hguard (chunkHas_imp_hasSub t0 c hc f (by simpa using hcc))
        have htail := ih hrest P
        unfold policyFold at htail
        rw [htail]
        refine congrArg _ (congrArg _ (List.filter_congr ?_))
        intro c hc
        rw [List.all_cons, hnone c hc]
        simp

/-- The sentence filter the post-processor implements: keep exactly the
chunks containing no forbidden term. -/
def keptChunks (t0 : List Char) : List Chunk :=
  (splitChunks t0).filter (fun c => forbiddenTerms.all (fun f => !chunkHas f c))

/-- C6: the post-processor removes exactly the sentences (chunks delimited
by `. ? !`, each taken with its delimiter) containing a forbidden phrase,
case-insensitively, keeping every other sentence intact and in order; and
when the filtering empties the text, the result is the fixed
policy-violation notice (with the short-reply clarification appended when
the surviving text is shorter than 8 characters, per lines 314-316). -/
theorem c6_policy_filtering (text : List Char) :
    postProcessReply text
      = (if text = [] then [] else
          let filtered := pyStrip (chunkJoin (keptChunks (pyStrip (normalizeWs text))))
          let t := if filtered = [] then policyNotice else filtered
          if t.length < 8 then t ++ clarifSuffix else t) := by
  by_cases htext : text = []
  · simp [postProcessReply, htext]
  · unfold postProcessReply
    rw [if_neg htext, if_neg htext]
    have hterms : ∀ f ∈ forbiddenTerms, termOk f = true := by decide
    have hstart : pyStrip (chunkJoin ((splitChunks (pyStrip (normalizeWs text))).filter
        (fun _ => true))) = pyStrip (normalizeWs text) := by
      rw [List.filter_true, chunkJoin_splitChunks]
      exact pyStrip_idem _
    have hfold2 : policyFold (toLowerL (pyStrip (normalizeWs text))) forbiddenTerms
          (pyStrip (normalizeWs text))
        = pyStrip (chunkJoin (keptChunks (pyStrip (normalizeWs text)))) := by
      conv_lhs => arg 3; rw [← hstart]
      rw [policyFold_eq _ forbiddenTerms hterms (fun _ => true)]
      unfold keptChunks
      refine congrArg _ (congrArg _ (List.filter_congr ?_))
      intro c _
      simp
    simp only [hfold2]

/-! ## Whitespace normal forms (for idempotence) -/

/-- Pointwise fixed-point condition of `normalizeWs`: no whitespace
character is followed, within its own run, by a later newline. -/
def noCollapse : List Char → Prop
  | [] => True
  | c :: rest => ¬(isWsChar c = true ∧ '\n' ∈ rest.takeWhile isWsChar) ∧ noCollapse rest

lemma noCollapse_fix : ∀ (s : List Char), noCollapse s → normalizeWs s = s := by
  intro s
  induction s with
  | nil => intro _; rfl
  | cons c rest ih =>
      intro h
      obtain ⟨h1, h2⟩ : ¬(isWsChar c = true ∧ '\n' ∈ rest.takeWhile isWsChar) ∧
          noCollapse rest := h
      unfold normalizeWs
      rw [if_neg (by
        intro hcond
        rcases Bool.and_eq_true .. ▸ hcond with ⟨hc1, hc2⟩
        exact h1 ⟨hc1, List.elem_iff.mp hc2⟩)]
      rw [ih h2]

lemma takeWhile_ws_normalizeWs : ∀ (rest : List Char), '\n' ∉ rest.takeWhile isWsChar →
    (normalizeWs rest).takeWhile isWsChar = rest.takeWhile isWsChar := by
  intro rest
  induction rest with
  | nil => intro _; rfl
  | cons d r ih =>
      intro h
      by_cases hd : isWsChar d = true
      · rw [List.takeWhile_cons_of_pos hd] at h
        have hdn : d ≠ '\n' := fun hEq => h (hEq ▸ List.mem_cons_self d _)
        have hnr : '\n' ∉ r.takeWhile isWsChar := fun hin => h (List.mem_cons_of_mem d hin)
        unfold normalizeWs
        rw [if_neg (by
          intro hcond
          rcases Bool.and_eq_true .. ▸ hcond with ⟨_, hc2⟩
          exact hnr (List.elem_iff.mp hc2))]
        rw [List.takeWhile_cons_of_pos hd, List.takeWhile_cons_of_pos hd, ih hnr]
      · unfold normalizeWs
        rw [if_neg (by
          intro hcond
          rcases Bool.and_eq_true .. ▸ hcond with ⟨hc1, _⟩
          exact hd hc1)]
        rw [List.takeWhile_cons_of_neg (by simpa using hd),
          List.takeWhile_cons_of_neg (by simpa using hd)]

lemma noCollapse_normalizeWs : ∀ (s : List Char), noCollapse (normalizeWs s) := by
  intro s
  induction s with
  | nil => trivial
  | cons c rest ih =>
      unfold normalizeWs
      by_cases hcond : (isWsChar c && (rest.takeWhile isWsChar).contains '\n') = true
      · rw [if_pos hcond]
        exact ih
      · rw [if_neg hcond]
        refine ⟨?_, ih⟩
        rintro ⟨hc1, hc2⟩
        have hnin : '\n' ∉ rest.takeWhile isWsChar := by
          intro hin
          exact hcond (by
            rw [Bool.and_eq_true]
            exact ⟨hc1, List.elem_iff.mpr hin⟩)
        rw [takeWhile_ws_normalizeWs rest hnin] at hc2
        exact hnin hc2

lemma prefix_takeWhile (p : Char → Bool) : ∀ (l s : List Char), l <+: s →
    l.takeWhile p <+: s.takeWhile p := by
  intro l
  induction l with
  | nil => intro s _; simp
  | cons c l2 ih =>
      intro s hp
      cases s with
      | nil => exact absurd hp (by simp)
      | cons d s2 =>
          obtain ⟨rfl, hp2⟩ := List.cons_prefix_cons.mp hp
          by_cases hc : p c = true
          · rw [List.takeWhile_cons_of_pos hc, List.takeWhile_cons_of_pos hc]
            exact List.cons_prefix_cons.mpr ⟨rfl, ih s2 hp2⟩
          · rw [List.takeWhile_cons_of_neg (by simpa using hc),
              List.takeWhile_cons_of_neg (by simpa using hc)]

lemma noCollapse_pre : ∀ (l s : List Char), l <+: s → noCollapse s → noCollapse l := by
  intro l
  induction l with
  | nil => intro s _ _; trivial
  | cons c l2 ih =>
      intro s hp h
      cases s with
      | nil => exact absurd hp (by simp)
      | cons d s2 =>
          obtain ⟨rfl, hp2⟩ := List.cons_prefix_cons.mp hp
          obtain ⟨h1, h2⟩ : ¬(isWsChar c = true ∧ '\n' ∈ s2.takeWhile isWsChar) ∧
              noCollapse s2 := h
          refine ⟨?_, ih s2 hp2 h2⟩
          rintro ⟨hc1, hc2⟩
          exact h1 ⟨hc1, (prefix_takeWhile isWsChar l2 s2 hp2).mem hc2⟩

lemma noCollapse_ltrim : ∀ (s : List Char), noCollapse s → noCollapse (ltrim s) := by
  intro s
  induction s with
  | nil => intro _; trivial
  | cons c rest ih =>
      intro h
      have hAnd : ¬(isWsChar c = true ∧ '\n' ∈ rest.takeWhile isWsChar) ∧
          noCollapse rest := h
      by_cases hc : isWsChar c = true
      · rw [show ltrim (c :: rest) = ltrim rest from by simp [ltrim, hc]]
        exact ih hAnd.2
      · rw [show ltrim (c :: rest) = c :: rest from by simp [ltrim, hc]]
        exact h

/-- The stripped, whitespace-normalized text is a fixed point of another
normalization pass. -/
lemma normalizeWs_pyStrip_normalizeWs (x : List Char) :
    normalizeWs (pyStrip (normalizeWs x)) = pyStrip (normalizeWs x) := by
  apply noCollapse_fix
  have h1 : noCollapse (normalizeWs x) := noCollapse_normalizeWs x
  have h2 : noCollapse (ltrim (normalizeWs x)) := noCollapse_ltrim _ h1
  exact noCollapse_pre _ _ (rtrim_isPrefix_self _) h2

/-- Re-processing's preliminary pass is the identity on processed text. -/
lemma pyStrip_normalizeWs_fix (x : List Char) :
    pyStrip (normalizeWs (pyStrip (normalizeWs x))) = pyStrip (normalizeWs x) := by
  rw [normalizeWs_pyStrip_normalizeWs, pyStrip_idem]

/-- When no forbidden term occurs in the guard text the policy loop is the
identity. -/
lemma policyFold_no_hit (lowered : List Char) : ∀ (terms : List (List Char)) (t : List Char),
    (∀ f ∈ terms, hasSub f lowered = false) → policyFold lowered terms t = t := by
  intro terms
  induction terms with
  | nil => intro t _; rfl
  | cons f rest ih =>
      intro t h
      unfold policyFold
      rw [List.foldl_cons, if_neg (by simp [h f (List.mem_cons_self f rest)])]
      exact ih t (fun g hg => h g (List.mem_cons_of_mem _ hg))

/-- C7 counterexample: the post-processor is not idempotent on the clean
input "hi" — the first pass appends the clarification request with a
double newline, and the second pass's whitespace normalization collapses
that to a single newline. -/
theorem c7_counterexample :
    postProcessReply (postProcessReply "hi".toList) ≠ postProcessReply "hi".toList := by
  decide

/-- C7 (amended): the post-processor is idempotent on policy-clean input
except when the short-reply clarification fires — for every text whose
normalized, stripped form contains no forbidden term and is either empty
(yielding the policy notice) or at least 8 characters long,
`process(process(x)) = process(x)`; texts whose processed form is shorter
than 8 characters receive the appended clarification request, which the
second pass's whitespace normalization alters. -/
theorem c7_idempotent_on_clean (x : List Char)
    (hclean : ∀ f ∈ forbiddenTerms,
      hasSub f (toLowerL (pyStrip (normalizeWs x))) = false)
    (hlen : pyStrip (normalizeWs x) = [] ∨ 8 ≤ (pyStrip (normalizeWs x)).length) :
    postProcessReply (postProcessReply x) = postProcessReply x := by
  by_cases hx : x = []
  · simp [postProcessReply, hx]
  · have hfold : policyFold (toLowerL (pyStrip (normalizeWs x))) forbiddenTerms
        (pyStrip (normalizeWs x)) = pyStrip (normalizeWs x) :=
      policyFold_no_hit _ forbiddenTerms _ hclean
    have hp1 : postProcessReply x
        = if pyStrip (normalizeWs x) = [] then policyNotice else pyStrip (normalizeWs x) := by
      unfold postProcessReply
      rw [if_neg hx]
      simp only [hfold]
      rcases hlen with hnil | hbig
      · rw [hnil]
        have h8 : ¬(policyNotice.length < 8) := by decide
        simp [h8]
      · have hne : pyStrip (normalizeWs x) ≠ [] := by
          intro hh; rw [hh] at hbig; simp at hbig
        rw [if_neg hne]
        rw [if_neg (by omega : ¬(pyStrip (normalizeWs x)).length < 8)]
    rw [hp1]
    rcases hlen with hnil | hbig
    · rw [if_pos hnil]
      decide
    · have hne : pyStrip (normalizeWs x) ≠ [] := by
        intro hh; rw [hh] at hbig; simp at hbig
      rw [if_neg hne]
      unfold postProcessReply
      rw [if_neg hne]
      have hnf : pyStrip (normalizeWs (pyStrip (normalizeWs x))) = pyStrip (normalizeWs x) :=
        pyStrip_normalizeWs_fix x
      simp only [hnf, hfold]
      rw [if_neg hne]
      rw [if_neg (by omega : ¬(pyStrip (normalizeWs x)).length < 8)]

/-- Witness for C7 at a concrete clean text of length ≥ 8. -/
theorem c7_idempotent_on_clean_witness :
    (∀ f ∈ forbiddenTerms,
      hasSub f (toLowerL (pyStrip (normalizeWs "Tudo certo por aqui.".toList))) = false) ∧
    8 ≤ (pyStrip (normalizeWs "Tudo certo por aqui.".toList)).length ∧
    postProcessReply (postProcessReply "Tudo certo por aqui.".toList)
      = postProcessReply "Tudo certo por aqui.".toList :=
  ⟨by decide, by decide,
    c7_idempotent_on_clean _ (by decide) (Or.inr (by decide))⟩

end AnalyzerAI
